import Mathlib

/-!
# Verification of the TriplClust core against its specification

A shallow embedding of the TriplClust curve-reconstruction pipeline
(point smoothing, triplet generation, the scale triplet metric, the
dendrogram cut of the hierarchical clustering, cluster projection and
the MST gap splitter), together with theorems checking the stated
properties of each component.

Floating-point doubles are modelled as real numbers.  The kd-tree
(`kdtree/kdtree.hpp`) and the fastcluster library
(`hclust/fastcluster.h`) are external to the sources; the queries the
core makes against them are modelled from their specified contracts and
are marked as such in their doc comments.
-/

namespace TriplClust

/-- A 3D point (class `Point` of pointcloud.h): three coordinates and the
immutable original index used for chronological ordering.  The coordinate
field `α` is ℝ for the floating-point code; arithmetic results carry
index 0 (the C++ operators leave the index of a fresh `Point` alone and
no caller reads it). -/
structure Point (α : Type) where
  x : α
  y : α
  z : α
  index : ℕ := 0
  deriving Repr, DecidableEq

variable {α : Type} [LinearOrderedField α]

instance : Inhabited (Point α) := ⟨⟨0, 0, 0, 0⟩⟩

/-- Vector addition (`Point::operator+`). -/
def Point.add (p q : Point α) : Point α := ⟨p.x + q.x, p.y + q.y, p.z + q.z, 0⟩

instance : Add (Point α) := ⟨Point.add⟩

/-- Vector subtraction (`Point::operator-`). -/
def Point.sub (p q : Point α) : Point α := ⟨p.x - q.x, p.y - q.y, p.z - q.z, 0⟩

instance : Sub (Point α) := ⟨Point.sub⟩

/-- Scalar (dot) product (`Point::operator*`). -/
def Point.dot (p q : Point α) : α := p.x * q.x + p.y * q.y + p.z * q.z

/-- Scalar multiplication (`operator*(double, Point)`). -/
def Point.smul (c : α) (p : Point α) : Point α := ⟨c * p.x, c * p.y, c * p.z, 0⟩

/-- Scalar division (`Point::operator/`). -/
def Point.divScalar (p : Point α) (c : α) : Point α := ⟨p.x / c, p.y / c, p.z / c, 0⟩

/-- Squared Euclidean norm (`Point::squared_norm`). -/
def Point.squared_norm (p : Point α) : α := p.x * p.x + p.y * p.y + p.z * p.z

/-- Euclidean norm (`Point::norm`), for real coordinates. -/
noncomputable def Point.norm (p : Point ℝ) : ℝ := Real.sqrt p.squared_norm

/-- The coordinate triple of a point; `Point::operator==` compares exactly
these three fields. -/
def Point.coords (p : Point α) : α × α × α := (p.x, p.y, p.z)

/-- Squared Euclidean distance between two points, as the kd-tree reports it. -/
def squaredDist (p q : Point α) : α := (p - q).squared_norm

/-- A point cloud (class `PointCloud` of pointcloud.h): a sequence of points
with the `2d` and `ordered` flags. -/
structure PointCloud (α : Type) where
  points : List (Point α)
  points2d : Bool := false
  ordered : Bool := false

/-- A triplet of three point indices with center, direction and error
(struct `triplet` of triplet.h). -/
structure Triplet where
  point_index_a : ℕ
  point_index_b : ℕ
  point_index_c : ℕ
  center : Point ℝ
  direction : Point ℝ
  error : ℝ

/-- The first perpendicular-residual term of the triplet metric: the squared
norm of `rhs.center - lhs.center + lhs.direction * ((lhs.center - rhs.center)
* lhs.direction)` from `ScaleTripletMetric::operator()`. -/
noncomputable def perpDist (cL cR d : Point ℝ) : ℝ :=
  ((cR - cL) + Point.smul (Point.dot d (cL - cR)) d).squared_norm

/-- The clamping of the cosine in `ScaleTripletMetric::operator()`:
values above 1 are set to 1, then values below -1 are set to -1. -/
noncomputable def clampCos (v : ℝ) : ℝ :=
  if 1 < v then 1 else if v < -1 then -1 else v

/-- The triplet dissimilarity `ScaleTripletMetric::operator()` of triplet.cpp:
perpendicular residuals in both directions, clamped cosine of the angle
between the directions, the 1e8 saturation branch for nearly orthogonal
directions, and otherwise `sqrt(max(rhoA, rhoB))/scale + |tan(acos cos)|`. -/
noncomputable def scaleTripletMetric (scale : ℝ) (lhs rhs : Triplet) : ℝ :=
  let perpendicularDistanceA := perpDist lhs.center rhs.center lhs.direction
  let perpendicularDistanceB := perpDist rhs.center lhs.center rhs.direction
  let anglecos := clampCos (Point.dot lhs.direction rhs.direction)
  if |anglecos| < 1e-8 then 1e8
  else
    Real.sqrt (max perpendicularDistanceA perpendicularDistanceB) / scale +
      |Real.tan (Real.arccos anglecos)|

/-- The arithmetic mean of cluster.cpp (`mean`): the sum of the values
divided by their number. -/
noncomputable def listMean (l : List ℝ) : ℝ := l.sum / l.length

/-- The sample standard deviation of cluster.cpp (`sd`):
`sqrt((1/(m-1)) * sum_k (mean - a[k])^2)`. -/
noncomputable def listSd (l : List ℝ) : ℝ :=
  Real.sqrt ((1 / ((l.length : ℝ) - 1)) *
    (l.map (fun v => (listMean l - v) * (listMean l - v))).sum)

/-- The stopping condition of the automatic dendrogram cut of `compute_hc`
at scan index k: `(cdists[k-1] > 0 or cdists[k] > 1e-8) and
cdists[k] > cdists[k-1] + 2*sd(cdists, k+1)`; `sd(cdists, k+1)` is the
sample standard deviation of the first k+1 merge distances. -/
def autoCutCond (cdists : List ℝ) (k : ℕ) : Prop :=
  (0 < cdists.getD (k - 1) 0 ∨ 1e-8 < cdists.getD k 0) ∧
    cdists.getD (k - 1) 0 + 2 * listSd (cdists.take (k + 1)) <
      cdists.getD k 0

noncomputable instance autoCutCondDecidable (cdists : List ℝ) (k : ℕ) :
    Decidable (autoCutCond cdists k) := by
  unfold autoCutCond; infer_instance

/-- The scan loop of the automatic dendrogram cut of `compute_hc`: from k
upward to `stop = |T|-1`, stop at the first index whose guard holds and
saturate at `stop`.  At k = 0 the guard reads `cdists[k-1]` before the
start of the array (`k` is a `size_t`, so `k-1` wraps around); that
out-of-bounds read is modelled as `none`. -/
noncomputable def autoCutGo (cdists : List ℝ) (stop k : ℕ) : Option ℕ :=
  if h : stop ≤ k then some k
  else if k = 0 then none
  else if autoCutCond cdists k then some k
  else autoCutGo cdists stop (k + 1)
termination_by stop - k
decreasing_by omega

/-- The automatic dendrogram cut of `compute_hc` (cluster.cpp): the scan
starts at `k = (triplet_size - 1) / 2` and runs up to
`stop = triplet_size - 1`. -/
noncomputable def autoCut (cdists : List ℝ) (tripletSize : ℕ) : Option ℕ :=
  autoCutGo cdists (tripletSize - 1) ((tripletSize - 1) / 2)

/-- The number of flat clusters in automatic mode:
`cluster_size = triplet_size - k` for the chosen cut index k. -/
noncomputable def hcAutoClusterCount (cdists : List ℝ) (tripletSize : ℕ) :
    Option ℕ :=
  (autoCut cdists tripletSize).map (fun k => tripletSize - k)

/-- Modelled from the spec: the kd-tree k-nearest query
(`k_nearest_neighbors` of kdtree/kdtree.hpp, which is not part of the
sources) returns the `min k N` cloud positions closest to the query
point, ascending by distance, ties broken stably by insertion (cloud)
order.  Each returned node carries its cloud position, from which the
reported squared distance and the stored original point index are
recovered. -/
noncomputable def kNearest (points : List (Point ℝ)) (q : Point ℝ) (k : ℕ) :
    List ℕ :=
  (List.insertionSort
    (fun i j => squaredDist (points.getD i default) q ≤
      squaredDist (points.getD j default) q)
    (List.range points.length)).take k

/-- The squared distances that accompany a k-nearest result. -/
noncomputable def kNearestDists (points : List (Point ℝ)) (q : Point ℝ)
    (k : ℕ) : List ℝ :=
  (kNearest points q k).map (fun j => squaredDist (points.getD j default) q)

/-- `compute_mean_square_distance` of dnn.cpp: for every point, query the
k+1 nearest neighbours (the first hit is the point itself at distance 0),
erase the first squared distance, and store the mean of the rest.  When
the remainder is empty the code computes `0.0 / 0`, which is NaN in IEEE
arithmetic; NaN is modelled as `none`. -/
noncomputable def computeMeanSquareDistance (points : List (Point ℝ))
    (k : ℕ) : List (Option ℝ) :=
  points.map (fun p =>
    let sq := (kNearestDists points p (k + 1)).drop 1
    if sq.length = 0 then none else some (sq.sum / sq.length))

/-- The order used to model `std::nth_element` on the mean-square
distances: real values by ≤, the NaN marker first.  On NaN-free lists
this is the ordering `std::nth_element` selects with, and on singleton
lists (the case of claim C10) no comparison happens at all, so the
placement of NaN is immaterial. -/
def optLe (a b : Option ℝ) : Prop :=
  match a, b with
  | none, _ => True
  | some _, none => False
  | some x, some y => x ≤ y

noncomputable instance optLeDecidable : DecidableRel optLe := fun a b =>
  match a, b with
  | none, _ => isTrue trivial
  | some _, none => isFalse (fun h => h)
  | some x, some y => inferInstanceAs (Decidable (x ≤ y))

/-- `first_quartile` of dnn.cpp: the mean-square distances for k = 1, then
the value at position `msd.size()/4` in nth-element order
(`std::nth_element` places there the element a full sort would). -/
noncomputable def firstQuartile (points : List (Point ℝ)) : Option ℝ :=
  let msd := computeMeanSquareDistance points 1
  (List.insertionSort optLe msd).getD (msd.length / 4) none

/-- Modelled from the spec: the kd-tree radius query
(`range_nearest_neighbors` of kdtree/kdtree.hpp, which is not part of
the sources) returns all cloud points with Euclidean distance at most r
from the query point, in cloud order. -/
noncomputable def radiusNearest (points : List (Point ℝ)) (q : Point ℝ)
    (r : ℝ) : List (Point ℝ) :=
  points.filter (fun p => decide ((p - q).norm ≤ r))

/-- `smoothen_cloud` of pointcloud.cpp: for radius 0 return the cloud
unchanged; otherwise replace every point by the componentwise mean of its
neighbours within radius r, keep its original index, and propagate the
`ordered` flag (the fresh result cloud has the default `2d` flag). -/
noncomputable def smoothenCloud (cloud : PointCloud ℝ) (r : ℝ) :
    PointCloud ℝ :=
  if r = 0 then cloud
  else
    { points := cloud.points.map (fun p =>
        let result := radiusNearest cloud.points p r
        { x := (result.map Point.x).sum / result.length,
          y := (result.map Point.y).sum / result.length,
          z := (result.map Point.z).sum / result.length,
          index := p.index }),
      points2d := false,
      ordered := cloud.ordered }

/-- The centroid of a list of points: the vector sum divided by the
count. -/
noncomputable def centroid (l : List (Point ℝ)) : Point ℝ :=
  (l.foldr (· + ·) (⟨0, 0, 0, 0⟩ : Point ℝ)).divScalar l.length

/-- The candidate a single (a, c) neighbour pair contributes in
`generate_triplets` (triplet.cpp): skip zero-distance hits of c, skip
index-decreasing pairs of an ordered cloud, form the unit branch vectors,
and keep the triple when `error = 1 - u*v` is at most the tolerance.
`b`, `ja`, `jc` are cloud positions (the kd-tree node `data` fields). -/
noncomputable def tripletCandidate (pts : List (Point ℝ)) (ordFlag : Bool)
    (a : ℝ) (b ja jc : ℕ) : List Triplet :=
  let point_b := pts.getD b default
  let point_a := pts.getD ja default
  let point_c := pts.getD jc default
  if squaredDist point_c point_b = 0 then []
  else if ordFlag ∧ point_c.index < point_b.index then []
  else
    let direction_ab := (point_b - point_a).divScalar (point_b - point_a).norm
    let direction_bc := (point_c - point_b).divScalar (point_c - point_b).norm
    let error := 1 - Point.dot direction_ab direction_bc
    if error ≤ a then
      [{ point_index_a := ja, point_index_b := b, point_index_c := jc,
         center := (point_a + point_b + point_c).divScalar 3,
         direction := (point_c - point_b).divScalar (point_c - point_b).norm,
         error := error }]
    else []

/-- The candidate collection of `generate_triplets` for midpoint b: the
double loop over positions `1 ≤ result_index_a < result_index_c` of the
kNN result, skipping zero-distance hits and (for ordered clouds) pairs
with `point_a.index > point_b.index`. -/
noncomputable def candidatesForMidpoint (cloud : PointCloud ℝ) (k : ℕ)
    (a : ℝ) (b : ℕ) : List Triplet :=
  let pts := cloud.points
  let point_b := pts.getD b default
  let result := kNearest pts point_b k
  (List.range result.length).flatMap (fun ria =>
    if ria = 0 then []
    else if squaredDist (pts.getD (result.getD ria 0) default) point_b = 0
      then []
    else if cloud.ordered ∧
        point_b.index < (pts.getD (result.getD ria 0) default).index then []
    else (List.range result.length).flatMap (fun ric =>
      if ric ≤ ria then []
      else tripletCandidate pts cloud.ordered a b (result.getD ria 0)
        (result.getD ric 0)))

/-- The candidate order of `generate_triplets`: `triplet::operator<`
compares errors. -/
def errLE (t1 t2 : Triplet) : Prop := t1.error ≤ t2.error

noncomputable instance errLEDecidable : DecidableRel errLE := fun t1 t2 =>
  inferInstanceAs (Decidable (t1.error ≤ t2.error))

instance errLETotal : IsTotal Triplet errLE := ⟨fun t1 t2 => le_total _ _⟩

instance errLETrans : IsTrans Triplet errLE :=
  ⟨fun _ _ _ h1 h2 => le_trans h1 h2⟩

/-- The contract of the `std::sort(candidates.begin(), candidates.end())`
call in `generate_triplets` (triplet.cpp): the C++ standard guarantees
only that the result is some permutation of the candidates that is
nondecreasing under the comparator `triplet::operator<` (error
comparison).  `std::sort` is not stable, so the relative order of
equal-error candidates in the result is unspecified; any list satisfying
this relation is a permissible outcome of the call. -/
def sortedPermOf (cands s : List Triplet) : Prop :=
  List.Perm cands s ∧ List.Pairwise errLE s

/-- The per-midpoint emission of `generate_triplets`: sort the candidates
ascending by error and keep the first `min n |candidates|` of them.  The
`std::sort` call guarantees only `sortedPermOf` (some error-sorted
permutation, ties in unspecified order); this executable embedding picks
one permissible outcome of that contract, the insertion sort. -/
noncomputable def tripletsForMidpoint (cloud : PointCloud ℝ) (k n : ℕ)
    (a : ℝ) (b : ℕ) : List Triplet :=
  let cands := candidatesForMidpoint cloud k a b
  (List.insertionSort errLE cands).take (min n cands.length)

/-- `generate_triplets` of triplet.cpp: the per-midpoint emissions for all
midpoints in cloud order. -/
noncomputable def generateTriplets (cloud : PointCloud ℝ) (k n : ℕ)
    (a : ℝ) : List Triplet :=
  (List.range cloud.points.length).flatMap (tripletsForMidpoint cloud k n a)

/-- The validity property of claim C1 for an emitted triplet: its error is
`1 - u*v` for the unit branch vectors and at most the tolerance, its
direction is the unit vector along c - b, its three point indices are
pairwise distinct, and for an ordered cloud the original indices are
monotone. -/
noncomputable def TripletValid (cloud : PointCloud ℝ) (a : ℝ)
    (t : Triplet) : Prop :=
  let pa := cloud.points.getD t.point_index_a default
  let pb := cloud.points.getD t.point_index_b default
  let pc := cloud.points.getD t.point_index_c default
  t.error = 1 - Point.dot ((pb - pa).divScalar (pb - pa).norm)
      ((pc - pb).divScalar (pc - pb).norm) ∧
  t.error ≤ a ∧
  t.direction = (pc - pb).divScalar (pc - pb).norm ∧
  t.direction.norm = 1 ∧
  t.point_index_a ≠ t.point_index_b ∧
  t.point_index_b ≠ t.point_index_c ∧
  t.point_index_a ≠ t.point_index_c ∧
  (cloud.ordered = true → pa.index ≤ pb.index ∧ pb.index ≤ pc.index)

/-- A weighted edge of graph.cpp (struct `Edge`): two vertex positions
into a cluster and the squared distance between the corresponding cloud
points. -/
structure Edge (α : Type) where
  src : ℕ
  dest : ℕ
  weight : α
  deriving Repr, DecidableEq

/-- The edge order of graph.cpp: `Edge::operator<` compares weights. -/
def weightLE {α : Type} [LinearOrderedField α] (e1 e2 : Edge α) : Prop :=
  e1.weight ≤ e2.weight

instance weightLEDecidable {α : Type} [LinearOrderedField α] :
    DecidableRel (weightLE (α := α)) := fun e1 e2 =>
  inferInstanceAs (Decidable (e1.weight ≤ e2.weight))

instance weightLETotal {α : Type} [LinearOrderedField α] :
    IsTotal (Edge α) weightLE := ⟨fun _ _ => le_total _ _⟩

instance weightLETrans {α : Type} [LinearOrderedField α] :
    IsTrans (Edge α) weightLE := ⟨fun _ _ _ h1 h2 => le_trans h1 h2⟩

/-- `create_edges` of graph.cpp: all pairs of cluster positions
(vertex1 < vertex2) weighted by the squared distance of their cloud
points, sorted ascending by weight (`std::sort`, embedded as a stable
sort). -/
def createEdges {α : Type} [LinearOrderedField α] (cloud : List (Point α))
    (cluster : List ℕ) : List (Edge α) :=
  List.insertionSort weightLE
    ((List.range cluster.length).flatMap (fun v1 =>
      ((List.range cluster.length).drop (v1 + 1)).map (fun v2 =>
        { src := v1, dest := v2,
          weight := squaredDist (cloud.getD (cluster.getD v2 0) default)
            (cloud.getD (cluster.getD v1 0) default) })))

/-- The Kruskal loop of `mst` in graph.cpp: keep an edge iff its
endpoints currently carry different group labels, and relabel the whole
absorbed group (union by relabelling). -/
def mstGo {α : Type} (groups : List ℕ) (acc : List (Edge α)) :
    List (Edge α) → List (Edge α)
  | [] => acc
  | e :: rest =>
    let group_a := groups.getD e.src 0
    let group_b := groups.getD e.dest 0
    if group_a = group_b then mstGo groups acc rest
    else mstGo (groups.map (fun g => if g = group_b then group_a else g))
      (acc ++ [e]) rest

/-- `mst` of graph.cpp: run the Kruskal loop with every vertex in its own
group. -/
def mst {α : Type} (edges : List (Edge α)) (vcount : ℕ) : List (Edge α) :=
  mstGo (List.range vcount) [] edges

/-- `remove_edge` of graph.cpp: drop every edge of weight above
`dmax * dmax`. -/
def removeEdge {α : Type} [LinearOrderedField α] (edges : List (Edge α))
    (dmax : α) : List (Edge α) :=
  edges.filter (fun e => decide (¬ dmax * dmax < e.weight))

/-- `create_adj` of graph.cpp: starting from `vcount` empty adjacency
lists, push `dest` onto `adj[src]` and `src` onto `adj[dest]` for every
edge in order. -/
def createAdj {α : Type} (vcount : ℕ) (edges : List (Edge α)) :
    List (List ℕ) :=
  edges.foldl (fun adj e =>
    let adj1 := adj.set e.src (adj.getD e.src [] ++ [e.dest])
    adj1.set e.dest (adj1.getD e.dest [] ++ [e.src]))
    (List.replicate vcount [])

/-- `dfs_util` of graph.cpp: iterative DFS with an explicit stack; pop a
vertex, mark it visited, record it, and push its not-yet-visited
neighbours in adjacency order (so the last pushed is popped first).  The
while loop carries explicit fuel; `max_step` supplies more fuel than
there are vertices, which suffices because every popped vertex of the
forests produced by `mst` is freshly visited, and exhaustion is modelled
as `none`. -/
def dfsLoop (adj : List (List ℕ)) : ℕ → List ℕ → List Bool → List ℕ →
    Option (List ℕ × List Bool)
  | _, [], visited, outV => some (outV, visited)
  | 0, _ :: _, _, _ => none
  | fuel + 1, v :: stack', visited, outV =>
    let visited' := visited.set v true
    let pushes := (adj.getD v []).filter (fun u => ! visited'.getD u false)
    dfsLoop adj fuel (pushes.reverse ++ stack') visited' (outV ++ [v])

/-- The component loop of `max_step`: run a DFS from every
not-yet-visited vertex in order and keep the resulting component (as
point indices, via the cluster) when it has at least `min_size` members
or no MST edge was removed. -/
def maxStepGo (adj : List (List ℕ)) (cluster : List ℕ)
    (minSize nRemoved : ℕ) : List ℕ → List Bool → List (List ℕ) →
    Option (List (List ℕ))
  | [], _, acc => some acc
  | v :: vs, visited, acc =>
    if visited.getD v false then
      maxStepGo adj cluster minSize nRemoved vs visited acc
    else
      match dfsLoop adj (2 * cluster.length + 2) [v] visited [] with
      | none => none
      | some (outV, visited') =>
        let newCluster := outV.map (fun u => cluster.getD u 0)
        if minSize ≤ newCluster.length ∨ nRemoved = 0 then
          maxStepGo adj cluster minSize nRemoved vs visited'
            (acc ++ [newCluster])
        else maxStepGo adj cluster minSize nRemoved vs visited' acc

/-- `max_step` of graph.cpp: build the complete weighted graph on the
cluster, extract its MST, delete every MST edge of squared weight above
`dmax * dmax` (counting the removals), and emit the connected components
of the remaining forest, keeping those of size at least `min_size` — all
of them when no edge was removed. -/
def maxStep {α : Type} [LinearOrderedField α] (cluster : List ℕ)
    (cloud : List (Point α)) (dmax : α) (minSize : ℕ) :
    Option (List (List ℕ)) :=
  let vcount := cluster.length
  let edges := createEdges cloud cluster
  let mstEdges := mst edges vcount
  let pruned := removeEdge mstEdges dmax
  let nRemoved := mstEdges.length - pruned.length
  let adj := createAdj vcount pruned
  maxStepGo adj cluster minSize nRemoved (List.range vcount)
    (List.replicate vcount false) []

/-- Undirected adjacency through a single edge of an edge list. -/
def edgeAdj {α : Type} (E : List (Edge α)) (u v : ℕ) : Prop :=
  ∃ e ∈ E, (e.src = u ∧ e.dest = v) ∨ (e.src = v ∧ e.dest = u)

/-- Connectivity in the undirected graph of an edge list. -/
def conn {α : Type} (E : List (Edge α)) : ℕ → ℕ → Prop :=
  Relation.ReflTransGen (edgeAdj E)

/-- The forest property of an edge list: every edge joins two vertices
not already connected by the edges before it. -/
def IsForest {α : Type} (E : List (Edge α)) : Prop :=
  ∀ A e B, E = A ++ e :: B → ¬ conn A e.src e.dest

/-- Two edges carry the same unordered vertex pair. -/
def samePair {α : Type} (e1 e2 : Edge α) : Prop :=
  (e1.src = e2.src ∧ e1.dest = e2.dest) ∨
    (e1.src = e2.dest ∧ e1.dest = e2.src)

/-- Connectivity through visited vertices only: every step of the path
joins two vertices marked in the visited array. -/
def connVia {α : Type} (E : List (Edge α)) (visited : List Bool) :
    ℕ → ℕ → Prop :=
  Relation.ReflTransGen (fun a b => edgeAdj E a b ∧
    visited.getD a false = true ∧ visited.getD b false = true)

/-- The property claim C4 states for `max_step`: the call succeeds and
emits exactly the connected components of the pruned MST that have at
least `min_size` members (all components when no MST edge was deleted,
where components are taken in the graph of the edges that survive
`remove_edge`); emitted clusters are duplicate-free and pairwise
disjoint; and no deleted MST edge has both endpoint points inside one
emitted cluster. -/
def MaxStepSpec {α : Type} [LinearOrderedField α] (cluster : List ℕ)
    (cloud : List (Point α)) (dmax : α) (minSize : ℕ) : Prop :=
  ∃ L, maxStep cluster cloud dmax minSize = some L ∧
    (∀ K ∈ L,
      (minSize ≤ K.length ∨
        (mst (createEdges cloud cluster) cluster.length).length -
          (removeEdge (mst (createEdges cloud cluster) cluster.length)
            dmax).length = 0) ∧
      K.Nodup ∧
      ∃ v < cluster.length, ∀ p, p ∈ K ↔
        ∃ u < cluster.length,
          conn (removeEdge (mst (createEdges cloud cluster)
            cluster.length) dmax) v u ∧ p = cluster.getD u 0) ∧
    (∀ v < cluster.length, ∃ K, K.Nodup ∧
      (∀ p, p ∈ K ↔ ∃ u < cluster.length,
        conn (removeEdge (mst (createEdges cloud cluster)
          cluster.length) dmax) v u ∧ p = cluster.getD u 0) ∧
      (K ∈ L ↔ (minSize ≤ K.length ∨
        (mst (createEdges cloud cluster) cluster.length).length -
          (removeEdge (mst (createEdges cloud cluster) cluster.length)
            dmax).length = 0))) ∧
    List.Pairwise (fun K1 K2 => ∀ p, p ∈ K1 → p ∉ K2) L ∧
    (∀ e ∈ mst (createEdges cloud cluster) cluster.length,
      dmax * dmax < e.weight →
      ∀ K ∈ L, ¬ (cluster.getD e.src 0 ∈ K ∧ cluster.getD e.dest 0 ∈ K))

/-- One population step at the end of `compute_hc`:
`result[labels[i]].push_back(i)`. -/
def pushAt (g : List (List ℕ)) (j i : ℕ) : List (List ℕ) :=
  g.set j (g.getD j [] ++ [i])

/-- The cluster-group construction at the end of `compute_hc`:
`cluster_size` initially-empty clusters, then every triplet index i is
appended to the cluster `labels[i]`.
Modelled from the spec: the labels come from `cutree_k` of the fastcluster
library (hclust/fastcluster.h, not part of the sources), which assigns
every triplet a label in `[0, cluster_size)`; the label array is taken
here as an input. -/
def buildClusterGroup (clusterSize : ℕ) (labels : List ℕ) : List (List ℕ) :=
  (List.range labels.length).foldl (fun g i => pushAt g (labels.getD i 0) i)
    (List.replicate clusterSize [])

end TriplClust

namespace TriplClust

section PointLemmas

variable {α : Type} [LinearOrderedField α]

@[simp] theorem Point.mk_add_mk (a b c : α) (i : ℕ) (d e f : α) (j : ℕ) :
    (⟨a, b, c, i⟩ + ⟨d, e, f, j⟩ : Point α) = ⟨a + d, b + e, c + f, 0⟩ := rfl

@[simp] theorem Point.mk_sub_mk (a b c : α) (i : ℕ) (d e f : α) (j : ℕ) :
    (⟨a, b, c, i⟩ - ⟨d, e, f, j⟩ : Point α) = ⟨a - d, b - e, c - f, 0⟩ := rfl

@[simp] theorem Point.dot_mk_mk (a b c : α) (i : ℕ) (d e f : α) (j : ℕ) :
    Point.dot (⟨a, b, c, i⟩ : Point α) ⟨d, e, f, j⟩ = a * d + b * e + c * f := rfl

@[simp] theorem Point.smul_mk (s a b c : α) (i : ℕ) :
    Point.smul s (⟨a, b, c, i⟩ : Point α) = ⟨s * a, s * b, s * c, 0⟩ := rfl

@[simp] theorem Point.mk_divScalar (a b c : α) (i : ℕ) (s : α) :
    Point.divScalar (⟨a, b, c, i⟩ : Point α) s = ⟨a / s, b / s, c / s, 0⟩ := rfl

@[simp] theorem Point.squared_norm_mk (a b c : α) (i : ℕ) :
    Point.squared_norm (⟨a, b, c, i⟩ : Point α) = a * a + b * b + c * c := rfl

theorem Point.sub_def (p q : Point α) :
    p - q = ⟨p.x - q.x, p.y - q.y, p.z - q.z, 0⟩ := rfl

@[simp] theorem Point.add_x (p q : Point α) : (p + q).x = p.x + q.x := rfl

@[simp] theorem Point.add_y (p q : Point α) : (p + q).y = p.y + q.y := rfl

@[simp] theorem Point.add_z (p q : Point α) : (p + q).z = p.z + q.z := rfl

theorem Point.add_def (p q : Point α) :
    p + q = ⟨p.x + q.x, p.y + q.y, p.z + q.z, 0⟩ := rfl

end PointLemmas

theorem Point.dot_comm (p q : Point ℝ) : Point.dot p q = Point.dot q p := by
  unfold Point.dot; ring

theorem clampCos_nonneg_abs (v : ℝ) : 0 ≤ |clampCos v| := abs_nonneg _

/-- C8: the triplet dissimilarity is symmetric and, for positive scale,
non-negative. -/
theorem scale_metric_symm_nonneg (s : ℝ) (hs : 0 < s) (L R : Triplet) :
    scaleTripletMetric s L R = scaleTripletMetric s R L ∧
      0 ≤ scaleTripletMetric s L R := by
  constructor
  · unfold scaleTripletMetric
    rw [Point.dot_comm L.direction R.direction]
    dsimp only
    rw [max_comm]
  · unfold scaleTripletMetric
    dsimp only
    split
    · norm_num
    · have h1 : 0 ≤ Real.sqrt (max (perpDist L.center R.center L.direction)
        (perpDist R.center L.center R.direction)) / s :=
        div_nonneg (Real.sqrt_nonneg _) hs.le
      have h2 : 0 ≤ |Real.tan (Real.arccos (clampCos
        (Point.dot L.direction R.direction)))| := abs_nonneg _
      linarith

/-- Witness for C8 at a concrete scale and concrete triplets. -/
theorem scale_metric_symm_nonneg_witness :
    (0:ℝ) < 1 ∧
      (scaleTripletMetric 1 ⟨0, 1, 2, ⟨0, 0, 0, 0⟩, ⟨1, 0, 0, 0⟩, 0⟩
          ⟨3, 4, 5, ⟨0, 1, 0, 0⟩, ⟨0, 1, 0, 0⟩, 0⟩ =
        scaleTripletMetric 1 ⟨3, 4, 5, ⟨0, 1, 0, 0⟩, ⟨0, 1, 0, 0⟩, 0⟩
          ⟨0, 1, 2, ⟨0, 0, 0, 0⟩, ⟨1, 0, 0, 0⟩, 0⟩ ∧
        0 ≤ scaleTripletMetric 1 ⟨0, 1, 2, ⟨0, 0, 0, 0⟩, ⟨1, 0, 0, 0⟩, 0⟩
          ⟨3, 4, 5, ⟨0, 1, 0, 0⟩, ⟨0, 1, 0, 0⟩, 0⟩) :=
  ⟨by norm_num, scale_metric_symm_nonneg 1 (by norm_num) _ _⟩

/-- C5 (amended): the metric returns the saturation sentinel 1e8 when the
absolute clamped cosine is below 1e-8, and otherwise returns
`sqrt(max(rhoLR, rhoRL))/s + |tan theta|`; the converse direction of the
original claim is false because the formula branch can also evaluate
to 1e8. -/
theorem scale_metric_saturation (s : ℝ) (L R : Triplet) :
    (|clampCos (Point.dot L.direction R.direction)| < 1e-8 →
      scaleTripletMetric s L R = 1e8) ∧
    (1e-8 ≤ |clampCos (Point.dot L.direction R.direction)| →
      scaleTripletMetric s L R =
        Real.sqrt (max (perpDist L.center R.center L.direction)
            (perpDist R.center L.center R.direction)) / s +
          |Real.tan (Real.arccos
            (clampCos (Point.dot L.direction R.direction)))|) := by
  constructor
  · intro h
    unfold scaleTripletMetric
    dsimp only
    rw [if_pos h]
  · intro h
    unfold scaleTripletMetric
    dsimp only
    rw [if_neg (not_lt.mpr h)]

/-- Witness for C5 at orthogonal unit directions: the saturation branch
fires and returns 1e8. -/
theorem scale_metric_saturation_witness :
    |clampCos (Point.dot (⟨1, 0, 0, 0⟩ : Point ℝ) ⟨0, 1, 0, 0⟩)| < 1e-8 ∧
      scaleTripletMetric 1 ⟨0, 1, 2, ⟨0, 0, 0, 0⟩, ⟨1, 0, 0, 0⟩, 0⟩
        ⟨3, 4, 5, ⟨0, 1, 0, 0⟩, ⟨0, 1, 0, 0⟩, 0⟩ = 1e8 := by
  have h : |clampCos (Point.dot (⟨1, 0, 0, 0⟩ : Point ℝ) ⟨0, 1, 0, 0⟩)| <
      1e-8 := by
    norm_num [clampCos]
  exact ⟨h, (scale_metric_saturation 1 _ _).1 h⟩

/-- C5 counterexample: two parallel triplets whose centers are 1e8 apart; the
clamped cosine is 1 (not below 1e-8), yet the metric still returns 1e8, so
"returns 1e8 only if |cos| < 1e-8" is false. -/
theorem scale_metric_iff_counterexample :
    scaleTripletMetric 1 ⟨0, 1, 2, ⟨0, 0, 0, 0⟩, ⟨1, 0, 0, 0⟩, 0⟩
        ⟨3, 4, 5, ⟨0, 1e8, 0, 0⟩, ⟨1, 0, 0, 0⟩, 0⟩ = 1e8 ∧
      ¬ |clampCos (Point.dot (⟨1, 0, 0, 0⟩ : Point ℝ) ⟨1, 0, 0, 0⟩)| <
          1e-8 := by
  have hclamp : clampCos (Point.dot (⟨1, 0, 0, 0⟩ : Point ℝ) ⟨1, 0, 0, 0⟩) =
      1 := by
    norm_num [clampCos]
  constructor
  · unfold scaleTripletMetric
    dsimp only
    rw [hclamp]
    rw [if_neg (by norm_num)]
    have hperp1 : perpDist (⟨0, 0, 0, 0⟩ : Point ℝ) ⟨0, 1e8, 0, 0⟩
        ⟨1, 0, 0, 0⟩ = 1e16 := by
      unfold perpDist; norm_num
    have hperp2 : perpDist (⟨0, 1e8, 0, 0⟩ : Point ℝ) ⟨0, 0, 0, 0⟩
        ⟨1, 0, 0, 0⟩ = 1e16 := by
      unfold perpDist; norm_num
    rw [hperp1, hperp2, max_self]
    rw [Real.arccos_one, Real.tan_zero, abs_zero]
    rw [show (1e16 : ℝ) = 1e8 ^ 2 by norm_num]
    rw [Real.sqrt_sq (by norm_num : (0:ℝ) ≤ 1e8)]
    norm_num

  · rw [hclamp]
    norm_num

theorem autoCutGo_spec (cdists : List ℝ) (stop : ℕ) :
    ∀ n k, 1 ≤ k → k ≤ stop → stop - k = n →
      ∃ j, autoCutGo cdists stop k = some j ∧ k ≤ j ∧ j ≤ stop ∧
        (j < stop → autoCutCond cdists j) ∧
        (∀ i, k ≤ i → i < j → ¬ autoCutCond cdists i) := by
  intro n
  induction n with
  | zero =>
    intro k hk1 hks hn
    have hsk : stop ≤ k := by omega
    refine ⟨k, ?_, le_refl k, hks, fun h => absurd h (by omega),
      fun i h1 h2 => absurd h2 (by omega)⟩
    rw [autoCutGo, dif_pos hsk]
  | succ n ih =>
    intro k hk1 hks hn
    have hlt : k < stop := by omega
    by_cases hc : autoCutCond cdists k
    · refine ⟨k, ?_, le_refl k, hks, fun _ => hc,
        fun i h1 h2 => absurd h2 (by omega)⟩
      rw [autoCutGo, dif_neg (by omega), if_neg (by omega : ¬ k = 0),
        if_pos hc]
    · obtain ⟨j, hgo, hkj, hjs, hcond, hmin⟩ :=
        ih (k + 1) (by omega) (by omega) (by omega)

      refine ⟨j, ?_, by omega, hjs, hcond, ?_⟩
      · rw [autoCutGo, dif_neg (by omega), if_neg (by omega : ¬ k = 0),
          if_neg hc]
        exact hgo
      · intro i h1 h2
        rcases eq_or_lt_of_le h1 with h | h
        · rw [← h]; exact hc
        · exact hmin i (by omega) h2

/-- C9: in automatic mode the scan reads of `cdists[k-1]` and `cdists[k]`
stay in bounds exactly when the triplet count is not 2; for a triplet count
of 2 the scan starts at k = 0 and its first guard reads `cdists[-1]`, an
out-of-bounds access which makes the scan unevaluable from the array
(`none` in this embedding). -/
theorem auto_cut_scan_bounds (cdists : List ℝ) (tripletSize : ℕ)
    (hlen : cdists.length = tripletSize - 1) (h1 : 1 ≤ tripletSize) :
    (tripletSize ≠ 2 → ∃ j, autoCut cdists tripletSize = some j) ∧
    (tripletSize = 2 → autoCut cdists tripletSize = none) := by
  constructor
  · intro hne
    rcases Nat.lt_or_ge tripletSize 3 with h | h
    · have h1' : tripletSize = 1 := by omega
      subst h1'
      refine ⟨0, ?_⟩
      rw [autoCut]
      norm_num
      rw [autoCutGo]
      norm_num
    · have hstart : 1 ≤ (tripletSize - 1) / 2 := by omega
      obtain ⟨j, hgo, _⟩ := autoCutGo_spec cdists (tripletSize - 1) _
        ((tripletSize - 1) / 2) hstart (Nat.div_le_self _ _) rfl
      exact ⟨j, hgo⟩
  · intro h2
    subst h2
    rw [autoCut]
    norm_num
    rw [autoCutGo]
    norm_num

/-- Witness for C9: for |T| = 2 the scan is out of bounds at its very first
read; for |T| = 3 it is defined. -/
theorem auto_cut_scan_bounds_witness :
    autoCut [(5 : ℝ)] 2 = none ∧ ∃ j, autoCut [(0 : ℝ), 0] 3 = some j :=
  ⟨(auto_cut_scan_bounds [(5 : ℝ)] 2 rfl (by norm_num)).2 rfl,
   (auto_cut_scan_bounds [(0 : ℝ), 0] 3 rfl (by norm_num)).1 (by norm_num)⟩

/-- C2 (amended to |T| ≥ 3): the automatic cut scans from `(|T|-1)/2`
upward, stops at the first index satisfying the guard, saturates at
`|T|-1`, and the flat clustering has `|T| - k` clusters.  For |T| = 2 the
first guard reads out of bounds (see the counterexample), so the claim is
restricted to |T| ≥ 3. -/
theorem compute_hc_auto_cut (cdists : List ℝ) (tripletSize : ℕ)
    (h3 : 3 ≤ tripletSize) (hlen : cdists.length = tripletSize - 1) :
    ∃ j, autoCut cdists tripletSize = some j ∧
      (tripletSize - 1) / 2 ≤ j ∧ j ≤ tripletSize - 1 ∧
      (j < tripletSize - 1 → autoCutCond cdists j) ∧
      (∀ i, (tripletSize - 1) / 2 ≤ i → i < j → ¬ autoCutCond cdists i) ∧
      hcAutoClusterCount cdists tripletSize = some (tripletSize - j) := by
  obtain ⟨j, hgo, hkj, hjs, hcond, hmin⟩ :=
    autoCutGo_spec cdists (tripletSize - 1) _ ((tripletSize - 1) / 2)
      (by omega) (Nat.div_le_self _ _) rfl
  refine ⟨j, hgo, hkj, hjs, hcond, hmin, ?_⟩
  rw [hcAutoClusterCount, autoCut, hgo]
  rfl

/-- Witness for C2 at |T| = 3 with merge distances [0, 10]: the guard never
fires (2·sd dominates), the cut saturates at k = 2 and one cluster
remains. -/
theorem compute_hc_auto_cut_witness :
    (3 : ℕ) ≤ 3 ∧ ([(0 : ℝ), 10].length = 3 - 1) ∧
      (∃ j, autoCut [(0 : ℝ), 10] 3 = some j ∧
        (3 - 1) / 2 ≤ j ∧ j ≤ 3 - 1 ∧
        (j < 3 - 1 → autoCutCond [(0 : ℝ), 10] j) ∧
        (∀ i, (3 - 1) / 2 ≤ i → i < j → ¬ autoCutCond [(0 : ℝ), 10] i) ∧
        hcAutoClusterCount [(0 : ℝ), 10] 3 = some (3 - j)) :=
  ⟨le_refl 3, rfl, compute_hc_auto_cut [(0 : ℝ), 10] 3 (le_refl 3) rfl⟩

/-- C2 counterexample: for |T| = 2 (merge-distance array [5]) the scan's
first guard reads `cdists[-1]`, so no cut index is chosen as claimed. -/
theorem compute_hc_auto_cut_counterexample : autoCut [(5 : ℝ)] 2 = none := by
  rw [autoCut]
  norm_num
  rw [autoCutGo]
  norm_num

theorem buildClusterGroup_eq (labels : List ℕ) (clusterSize : ℕ) :
    ∀ t, t ≤ labels.length →
      (List.range t).foldl (fun g i => pushAt g (labels.getD i 0) i)
        (List.replicate clusterSize []) =
      (List.range clusterSize).map
        (fun j => (List.range t).filter (fun i => decide (labels.getD i 0 = j)))
      := by
  intro t
  induction t with
  | zero =>
    intro _
    refine List.ext_getElem ?_ ?_ <;> simp
  | succ t ih =>
    intro ht
    rw [List.range_succ, List.foldl_append, ih (by omega), List.foldl_cons,
      List.foldl_nil]
    unfold pushAt
    refine List.ext_getElem (by simp) ?_
    intro idx h1 h2
    rw [List.getElem_set]
    simp only [List.getElem_map, List.getElem_range, List.range_succ,
      List.filter_append, List.filter_cons, List.filter_nil]
    have hlen : idx < clusterSize := by simpa using h2
    by_cases hj : labels.getD t 0 = idx
    · rw [if_pos hj]
      have hjlt : labels.getD t 0 < clusterSize := by rw [hj]; exact hlen
      have hget : ((List.range clusterSize).map
          (fun j => (List.range t).filter
            (fun i => decide (labels.getD i 0 = j)))).getD
            (labels.getD t 0) [] =
          (List.range t).filter
            (fun i => decide (labels.getD i 0 = labels.getD t 0)) := by
        rw [List.getD_eq_getElem _ _ (by simpa using hjlt)]
        simp
      rw [hget, hj]
      rw [if_pos (by simp)]
    · rw [if_neg hj]
      rw [if_neg (by simp only [decide_eq_true_eq]; exact hj)]
      rw [List.append_nil]

theorem countP_range_single (n t : ℕ) (ht : t < n) :
    (List.range n).countP (fun j => decide (t = j)) = 1 := by
  induction n with
  | zero => omega
  | succ n ih =>
    rw [List.range_succ, List.countP_append]
    by_cases h : t = n
    · subst h
      have h0 : (List.range t).countP (fun j => decide (t = j)) = 0 := by
        rw [List.countP_eq_zero]
        intro a ha
        simp only [List.mem_range] at ha
        simp
        omega
      rw [h0]
      simp
    · rw [ih (by omega)]
      simp [h]

/-- C6: the cluster group produced at the end of `compute_hc` partitions the
triplet indices: every index below `labels.length` lies in exactly one
cluster, and no cluster contains anything else; the group has exactly
`cluster_size` clusters. -/
theorem compute_hc_partition (clusterSize : ℕ) (labels : List ℕ)
    (hlab : ∀ l ∈ labels, l < clusterSize) :
    (buildClusterGroup clusterSize labels).length = clusterSize ∧
    (∀ i, i < labels.length →
      (buildClusterGroup clusterSize labels).countP
        (fun K => decide (i ∈ K)) = 1) ∧
    (∀ K, K ∈ buildClusterGroup clusterSize labels → ∀ i, i ∈ K →
      i < labels.length) := by
  have hchar := buildClusterGroup_eq labels clusterSize labels.length
    (le_refl _)
  have hbuild : buildClusterGroup clusterSize labels =
      (List.range clusterSize).map
        (fun j => (List.range labels.length).filter
          (fun i => decide (labels.getD i 0 = j))) := hchar
  refine ⟨by rw [hbuild]; simp, ?_, ?_⟩
  · intro i hi
    rw [hbuild, List.countP_map]
    have hpt : ∀ j ∈ List.range clusterSize,
        (((fun K => decide (i ∈ K)) ∘
          (fun j => (List.range labels.length).filter
            (fun i => decide (labels.getD i 0 = j)))) j = true ↔
        (fun j => decide (labels.getD i 0 = j)) j = true) := by
      intro j _
      simp only [Function.comp_apply, decide_eq_true_eq]
      constructor
      · intro hmem
        have := List.of_mem_filter hmem
        simpa using this
      · intro hj
        refine List.mem_filter.mpr ⟨by simpa using hi, by simpa using hj⟩
    rw [List.countP_congr hpt]
    refine countP_range_single clusterSize (labels.getD i 0) ?_
    refine hlab _ ?_
    rw [List.getD_eq_getElem _ _ hi]
    exact List.getElem_mem _
  · intro K hK i hi
    rw [hbuild] at hK
    obtain ⟨j, _, rfl⟩ := List.mem_map.mp hK
    have := List.mem_of_mem_filter hi
    simpa using this

/-- C10: for a cloud of exactly one point, removing the self-match from
the single-element kNN result leaves an empty distance list, so
`compute_mean_square_distance` stores NaN (`none` here, the 0.0/0 of the
code); `first_quartile` then returns that NaN instead of 0 or an error,
and the caller's duplicate-point test (quartile equal to 0) does not
fire. -/
theorem dnn_single_point_nan (p : Point ℝ) :
    computeMeanSquareDistance [p] 1 = [none] ∧
      firstQuartile [p] = none ∧ firstQuartile [p] ≠ some 0 := by
  have hknn : kNearest [p] p 2 = [0] := by
    unfold kNearest
    simp
  have hmsd : computeMeanSquareDistance [p] 1 = [none] := by
    unfold computeMeanSquareDistance kNearestDists
    simp only [List.map_cons, List.map_nil]
    rw [show (1:ℕ) + 1 = 2 from rfl, hknn]
    simp
  have hq : firstQuartile [p] = none := by
    unfold firstQuartile
    rw [hmsd]
    simp
  exact ⟨hmsd, hq, by rw [hq]; simp⟩

theorem Point.squared_norm_nonneg (p : Point ℝ) : 0 ≤ p.squared_norm := by
  unfold Point.squared_norm
  nlinarith [mul_self_nonneg p.x, mul_self_nonneg p.y, mul_self_nonneg p.z]

theorem norm_le_zero_coords {p q : Point ℝ} (h : (p - q).norm ≤ 0) :
    p.x = q.x ∧ p.y = q.y ∧ p.z = q.z := by
  have h0 : (p - q).norm = 0 := le_antisymm h (Real.sqrt_nonneg _)
  have hsq : (p - q).squared_norm = 0 := by
    have h1 : (p - q).squared_norm ≤ 0 := by
      have := Real.sqrt_eq_zero'.mp h0
      exact this
    exact le_antisymm h1 (Point.squared_norm_nonneg _)
  rw [Point.sub_def] at hsq
  simp only [Point.squared_norm_mk] at hsq
  refine ⟨?_, ?_, ?_⟩ <;>
    [ skip; skip; skip] <;>
    · rw [← sub_eq_zero]
      rw [← mul_self_eq_zero]
      nlinarith [mul_self_nonneg (p.x - q.x), mul_self_nonneg (p.y - q.y),
        mul_self_nonneg (p.z - q.z)]

theorem self_mem_radiusNearest (points : List (Point ℝ)) (q : Point ℝ)
    (r : ℝ) (hr : 0 ≤ r) (hq : q ∈ points) : q ∈ radiusNearest points q r := by
  unfold radiusNearest
  refine List.mem_filter.mpr ⟨hq, ?_⟩
  have : (q - q).norm = 0 := by
    unfold Point.norm
    rw [Point.sub_def]
    simp only [Point.squared_norm_mk, sub_self]
    norm_num
  simp [this, hr]

theorem foldr_add_x (l : List (Point ℝ)) :
    (l.foldr (· + ·) (⟨0, 0, 0, 0⟩ : Point ℝ)).x = (l.map Point.x).sum := by
  induction l with
  | nil => simp
  | cons p rest ih => simp [ih]

theorem foldr_add_y (l : List (Point ℝ)) :
    (l.foldr (· + ·) (⟨0, 0, 0, 0⟩ : Point ℝ)).y = (l.map Point.y).sum := by
  induction l with
  | nil => simp
  | cons p rest ih => simp [ih]

theorem foldr_add_z (l : List (Point ℝ)) :
    (l.foldr (· + ·) (⟨0, 0, 0, 0⟩ : Point ℝ)).z = (l.map Point.z).sum := by
  induction l with
  | nil => simp
  | cons p rest ih => simp [ih]

theorem centroid_coords (l : List (Point ℝ)) :
    (centroid l).coords = ((l.map Point.x).sum / l.length,
      (l.map Point.y).sum / l.length, (l.map Point.z).sum / l.length) := by
  unfold centroid Point.coords Point.divScalar
  simp [foldr_add_x, foldr_add_y, foldr_add_z]

theorem centroid_radius_zero (points : List (Point ℝ)) (q : Point ℝ)
    (hq : q ∈ points) :
    (centroid (radiusNearest points q 0)).coords = q.coords := by
  have hmem : q ∈ radiusNearest points q 0 :=
    self_mem_radiusNearest points q 0 le_rfl hq
  have hcomp : ∀ p ∈ radiusNearest points q 0,
      p.x = q.x ∧ p.y = q.y ∧ p.z = q.z := by
    intro p hp
    have := List.of_mem_filter hp
    exact norm_le_zero_coords (by simpa using this)
  have hlen : (radiusNearest points q 0).length ≠ 0 := by
    intro h
    rw [List.length_eq_zero] at h
    rw [h] at hmem
    exact absurd hmem (List.not_mem_nil q)
  rw [centroid_coords, Point.coords]
  have hx : (radiusNearest points q 0).map Point.x =
      List.replicate (radiusNearest points q 0).length q.x := by
    have : ∀ b ∈ (radiusNearest points q 0).map Point.x, b = q.x := by
      intro b hb
      obtain ⟨p, hp, rfl⟩ := List.mem_map.mp hb
      exact (hcomp p hp).1
    simpa using List.eq_replicate_of_mem this
  have hy : (radiusNearest points q 0).map Point.y =
      List.replicate (radiusNearest points q 0).length q.y := by
    have : ∀ b ∈ (radiusNearest points q 0).map Point.y, b = q.y := by
      intro b hb
      obtain ⟨p, hp, rfl⟩ := List.mem_map.mp hb
      exact (hcomp p hp).2.1
    simpa using List.eq_replicate_of_mem this
  have hz : (radiusNearest points q 0).map Point.z =
      List.replicate (radiusNearest points q 0).length q.z := by
    have : ∀ b ∈ (radiusNearest points q 0).map Point.z, b = q.z := by
      intro b hb
      obtain ⟨p, hp, rfl⟩ := List.mem_map.mp hb
      exact (hcomp p hp).2.2
    simpa using List.eq_replicate_of_mem this
  rw [hx, hy, hz]
  have hne : ((radiusNearest points q 0).length : ℝ) ≠ 0 :=
    Nat.cast_ne_zero.mpr hlen
  simp only [List.sum_replicate, nsmul_eq_mul]
  rw [mul_div_cancel_left₀ _ hne, mul_div_cancel_left₀ _ hne,
    mul_div_cancel_left₀ _ hne]

/-- C3: smoothing preserves cloud length, per-point indices and the
`ordered` flag; each output point is the centroid of the input points
within Euclidean distance r of the query point (a never-empty set since
it contains the query point); for r = 0 the output is a copy of the
input cloud. -/
theorem smoothen_cloud_spec (cloud : PointCloud ℝ) (r : ℝ) (hr : 0 ≤ r) :
    (smoothenCloud cloud r).points.length = cloud.points.length ∧
    (r = 0 → smoothenCloud cloud r = cloud) ∧
    (smoothenCloud cloud r).ordered = cloud.ordered ∧
    (∀ i, i < cloud.points.length →
      radiusNearest cloud.points (cloud.points.getD i default) r ≠ [] ∧
      ((smoothenCloud cloud r).points.getD i default).coords =
        (centroid (radiusNearest cloud.points
          (cloud.points.getD i default) r)).coords ∧
      ((smoothenCloud cloud r).points.getD i default).index =
        (cloud.points.getD i default).index) := by
  have hself : ∀ i, i < cloud.points.length →
      radiusNearest cloud.points (cloud.points.getD i default) r ≠ [] := by
    intro i hi
    have hq : cloud.points.getD i default ∈ cloud.points := by
      rw [List.getD_eq_getElem _ _ hi]
      exact List.getElem_mem _
    exact List.ne_nil_of_mem (self_mem_radiusNearest _ _ r hr hq)
  by_cases hr0 : r = 0
  · subst hr0
    have hcopy : smoothenCloud cloud 0 = cloud := by
      unfold smoothenCloud
      rw [if_pos rfl]
    refine ⟨by rw [hcopy], fun _ => hcopy, by rw [hcopy], ?_⟩
    intro i hi
    have hq : cloud.points.getD i default ∈ cloud.points := by
      rw [List.getD_eq_getElem _ _ hi]
      exact List.getElem_mem _
    refine ⟨hself i hi, ?_, ?_⟩
    · rw [hcopy, centroid_radius_zero cloud.points _ hq]
    · rw [hcopy]
  · have hpoints : (smoothenCloud cloud r).points = cloud.points.map
        (fun p =>
          let result := radiusNearest cloud.points p r
          ({ x := (result.map Point.x).sum / result.length,
             y := (result.map Point.y).sum / result.length,
             z := (result.map Point.z).sum / result.length,
             index := p.index } : Point ℝ)) := by
      unfold smoothenCloud
      rw [if_neg hr0]
    have hord : (smoothenCloud cloud r).ordered = cloud.ordered := by
      unfold smoothenCloud
      rw [if_neg hr0]
    refine ⟨by rw [hpoints]; simp, fun h => absurd h hr0, hord, ?_⟩
    intro i hi
    have hget : (smoothenCloud cloud r).points.getD i default =
        ({ x := ((radiusNearest cloud.points (cloud.points.getD i default)
              r).map Point.x).sum /
            (radiusNearest cloud.points (cloud.points.getD i default)
              r).length,
           y := ((radiusNearest cloud.points (cloud.points.getD i default)
              r).map Point.y).sum /
            (radiusNearest cloud.points (cloud.points.getD i default)
              r).length,
           z := ((radiusNearest cloud.points (cloud.points.getD i default)
              r).map Point.z).sum /
            (radiusNearest cloud.points (cloud.points.getD i default)
              r).length,
           index := (cloud.points.getD i default).index } : Point ℝ) := by
      rw [hpoints, List.getD_eq_getElem _ _ (by simpa using hi),
        List.getElem_map, List.getD_eq_getElem _ _ hi]
    refine ⟨hself i hi, ?_, ?_⟩
    · rw [hget, centroid_coords, Point.coords]
    · rw [hget]

/-- Witness for C3 at a one-point cloud and radius 1. -/
theorem smoothen_cloud_spec_witness :
    (0:ℝ) ≤ 1 ∧
      ((smoothenCloud ⟨[⟨0, 0, 0, 0⟩], false, false⟩ 1).points.length =
        ([⟨0, 0, 0, 0⟩] : List (Point ℝ)).length ∧
      ((1:ℝ) = 0 → smoothenCloud ⟨[⟨0, 0, 0, 0⟩], false, false⟩ 1 =
        ⟨[⟨0, 0, 0, 0⟩], false, false⟩) ∧
      (smoothenCloud ⟨[⟨0, 0, 0, 0⟩], false, false⟩ 1).ordered = false ∧
      (∀ i, i < ([⟨0, 0, 0, 0⟩] : List (Point ℝ)).length →
        radiusNearest [⟨0, 0, 0, 0⟩]
          (([⟨0, 0, 0, 0⟩] : List (Point ℝ)).getD i default) 1 ≠ [] ∧
        ((smoothenCloud ⟨[⟨0, 0, 0, 0⟩], false, false⟩ 1).points.getD i
            default).coords =
          (centroid (radiusNearest [⟨0, 0, 0, 0⟩]
            (([⟨0, 0, 0, 0⟩] : List (Point ℝ)).getD i default) 1)).coords ∧
        ((smoothenCloud ⟨[⟨0, 0, 0, 0⟩], false, false⟩ 1).points.getD i
            default).index =
          (([⟨0, 0, 0, 0⟩] : List (Point ℝ)).getD i default).index)) :=
  ⟨by norm_num, smoothen_cloud_spec ⟨[⟨0, 0, 0, 0⟩], false, false⟩ 1
    (by norm_num)⟩

theorem kNearest_nodup (pts : List (Point ℝ)) (q : Point ℝ) (k : ℕ) :
    (kNearest pts q k).Nodup := by
  unfold kNearest
  exact (List.take_sublist _ _).nodup
    (((List.perm_insertionSort _ _).nodup_iff).mpr (List.nodup_range _))

theorem kNearest_lt_length (pts : List (Point ℝ)) (q : Point ℝ) (k : ℕ) :
    ∀ j ∈ kNearest pts q k, j < pts.length := by
  intro j hj
  unfold kNearest at hj
  have h1 := List.mem_of_mem_take hj
  have h2 := (List.perm_insertionSort _ _).subset h1
  simpa using h2

theorem squaredDist_self (p : Point ℝ) : squaredDist p p = 0 := by
  unfold squaredDist
  rw [Point.sub_def]
  simp

theorem divScalar_norm_norm (v : Point ℝ) (hv : v.squared_norm ≠ 0) :
    (v.divScalar v.norm).norm = 1 := by
  have hs : 0 ≤ v.squared_norm := Point.squared_norm_nonneg v
  have hcc : Real.sqrt v.squared_norm * Real.sqrt v.squared_norm =
      v.squared_norm := Real.mul_self_sqrt hs
  unfold Point.norm
  have hdiv : (v.divScalar (Real.sqrt v.squared_norm)).squared_norm =
      v.squared_norm /
        (Real.sqrt v.squared_norm * Real.sqrt v.squared_norm) := by
    unfold Point.divScalar Point.squared_norm
    dsimp only
    ring
  rw [hdiv, hcc, div_self hv, Real.sqrt_one]

theorem mem_tripletCandidate {pts : List (Point ℝ)} {ordFlag : Bool}
    {a : ℝ} {b ja jc : ℕ} {t : Triplet}
    (ht : t ∈ tripletCandidate pts ordFlag a b ja jc) :
    ¬ squaredDist (pts.getD jc default) (pts.getD b default) = 0 ∧
    ¬ (ordFlag ∧ (pts.getD jc default).index <
        (pts.getD b default).index) ∧
    1 - Point.dot ((pts.getD b default - pts.getD ja default).divScalar
        (pts.getD b default - pts.getD ja default).norm)
        ((pts.getD jc default - pts.getD b default).divScalar
        (pts.getD jc default - pts.getD b default).norm) ≤ a ∧
    t = { point_index_a := ja, point_index_b := b, point_index_c := jc,
          center := (pts.getD ja default + pts.getD b default +
            pts.getD jc default).divScalar 3,
          direction := (pts.getD jc default -
            pts.getD b default).divScalar
            (pts.getD jc default - pts.getD b default).norm,
          error := 1 - Point.dot
            ((pts.getD b default - pts.getD ja default).divScalar
              (pts.getD b default - pts.getD ja default).norm)
            ((pts.getD jc default - pts.getD b default).divScalar
              (pts.getD jc default - pts.getD b default).norm) } := by
  unfold tripletCandidate at ht
  dsimp only at ht
  split_ifs at ht with h1 h2 h3
  · exact absurd ht (List.not_mem_nil t)
  · exact absurd ht (List.not_mem_nil t)
  · have := List.mem_singleton.mp ht
    exact ⟨h1, h2, h3, this⟩
  · exact absurd ht (List.not_mem_nil t)

theorem mem_candidatesForMidpoint {cloud : PointCloud ℝ} {k : ℕ} {a : ℝ}
    {b : ℕ} {t : Triplet} (ht : t ∈ candidatesForMidpoint cloud k a b) :
    ∃ ria ric,
      ria < (kNearest cloud.points (cloud.points.getD b default) k).length ∧
      ric < (kNearest cloud.points (cloud.points.getD b default) k).length ∧
      ria ≠ 0 ∧ ria < ric ∧
      ¬ squaredDist (cloud.points.getD
          ((kNearest cloud.points (cloud.points.getD b default) k).getD ria 0)
          default) (cloud.points.getD b default) = 0 ∧
      ¬ (cloud.ordered ∧ (cloud.points.getD b default).index <
          (cloud.points.getD
            ((kNearest cloud.points (cloud.points.getD b default) k).getD
              ria 0) default).index) ∧
      t ∈ tripletCandidate cloud.points cloud.ordered a b
        ((kNearest cloud.points (cloud.points.getD b default) k).getD ria 0)
        ((kNearest cloud.points (cloud.points.getD b default) k).getD
          ric 0) := by
  unfold candidatesForMidpoint at ht
  dsimp only at ht
  rw [List.mem_flatMap] at ht
  obtain ⟨ria, hria, ht⟩ := ht
  rw [List.mem_range] at hria
  split_ifs at ht with h1 h2 h3
  · exact absurd ht (List.not_mem_nil t)
  · exact absurd ht (List.not_mem_nil t)
  · exact absurd ht (List.not_mem_nil t)
  · rw [List.mem_flatMap] at ht
    obtain ⟨ric, hric, ht⟩ := ht
    rw [List.mem_range] at hric
    split_ifs at ht with h4
    · exact absurd ht (List.not_mem_nil t)
    · exact ⟨ria, ric, hria, hric, h1, by omega, h2, h3, ht⟩

/-- C1: every triplet emitted by `generate_triplets` has error
`1 - u*v ≤ a` for the unit branch vectors, a unit direction along c - b,
three pairwise distinct point indices, and monotone original indices for
an ordered cloud. -/
theorem generate_triplets_valid (cloud : PointCloud ℝ) (k n : ℕ) (a : ℝ)
    (t : Triplet) (ht : t ∈ generateTriplets cloud k n a) :
    TripletValid cloud a t := by
  unfold generateTriplets at ht
  rw [List.mem_flatMap] at ht
  obtain ⟨b, _, ht⟩ := ht
  have hmem : t ∈ candidatesForMidpoint cloud k a b := by
    unfold tripletsForMidpoint at ht
    dsimp only at ht
    have h1 := List.mem_of_mem_take ht
    exact (List.perm_insertionSort errLE _).subset h1
  obtain ⟨ria, ric, hria, hric, hrne, hrlt, hda, hoa, htc⟩ :=
    mem_candidatesForMidpoint hmem
  obtain ⟨hdc, hoc, herr, rfl⟩ := mem_tripletCandidate htc
  have hnodup := kNearest_nodup cloud.points (cloud.points.getD b default) k
  have hane : (kNearest cloud.points (cloud.points.getD b default) k).getD
      ria 0 ≠
      (kNearest cloud.points (cloud.points.getD b default) k).getD ric 0 := by
    rw [List.getD_eq_getElem _ _ hria, List.getD_eq_getElem _ _ hric]
    intro heq
    have := (List.Nodup.getElem_inj_iff hnodup).mp heq
    omega
  have haneb : (kNearest cloud.points (cloud.points.getD b default) k).getD
      ria 0 ≠ b := by
    intro heq
    rw [heq] at hda
    exact hda (squaredDist_self _)
  have hcneb : (kNearest cloud.points (cloud.points.getD b default) k).getD
      ric 0 ≠ b := by
    intro heq
    rw [heq] at hdc
    exact hdc (squaredDist_self _)
  unfold TripletValid
  dsimp only
  refine ⟨rfl, herr, rfl, ?_, haneb, fun h => hcneb h.symm, hane, ?_⟩
  · exact divScalar_norm_norm _ hdc
  · intro hord
    rw [hord] at hoa hoc
    constructor
    · by_contra hlt
      exact hoa ⟨rfl, by omega⟩
    · by_contra hlt
      exact hoc ⟨rfl, by omega⟩

/-- C7 (amended): for every midpoint, `generate_triplets` appends the
first `min n |candidates|` entries of some error-sorted permutation of
the candidate list — the guarantee of the unstable `std::sort` — so at
most n triplets are appended, in ascending error order, every selected
candidate's error at most every unselected candidate's error, and
selected plus unselected together are exactly the candidates.  The
order (and, at a size-n boundary, the identity) of equal-error
candidates is not specified.  The executable embedding's insertion sort
is one permissible outcome of the contract. -/
theorem generate_triplets_midpoint_cap (cloud : PointCloud ℝ) (k n : ℕ)
    (a : ℝ) (b : ℕ) (s : List Triplet)
    (hs : sortedPermOf (candidatesForMidpoint cloud k a b) s) :
    (s.take (min n (candidatesForMidpoint cloud k a b).length)).length ≤
      n ∧
    (s.take (min n (candidatesForMidpoint cloud k a b).length)).length =
      min n (candidatesForMidpoint cloud k a b).length ∧
    List.Sorted errLE
      (s.take (min n (candidatesForMidpoint cloud k a b).length)) ∧
    (s.take (min n (candidatesForMidpoint cloud k a b).length) ++
      s.drop (min n (candidatesForMidpoint cloud k a b).length)).Perm
      (candidatesForMidpoint cloud k a b) ∧
    (∀ t1 ∈ s.take (min n (candidatesForMidpoint cloud k a b).length),
      ∀ t2 ∈ s.drop (min n (candidatesForMidpoint cloud k a b).length),
        errLE t1 t2) ∧
    sortedPermOf (candidatesForMidpoint cloud k a b)
      (List.insertionSort errLE (candidatesForMidpoint cloud k a b)) ∧
    tripletsForMidpoint cloud k n a b =
      (List.insertionSort errLE (candidatesForMidpoint cloud k a b)).take
        (min n (candidatesForMidpoint cloud k a b).length) ∧
    generateTriplets cloud k n a =
      (List.range cloud.points.length).flatMap
        (tripletsForMidpoint cloud k n a) := by
  obtain ⟨hperm, hsorted⟩ := hs
  have hslen : s.length = (candidatesForMidpoint cloud k a b).length :=
    hperm.length_eq.symm
  refine ⟨?_, ?_, ?_, ?_, ?_, ?_, rfl, rfl⟩
  · rw [List.length_take]
    omega
  · rw [List.length_take, hslen]
    omega
  · exact List.Pairwise.sublist (List.take_sublist _ _) hsorted
  · rw [List.take_append_drop]
    exact hperm.symm
  · intro t1 ht1 t2 ht2
    have hpw : List.Pairwise errLE
        (s.take (min n (candidatesForMidpoint cloud k a b).length) ++
          s.drop (min n (candidatesForMidpoint cloud k a b).length)) := by
      rw [List.take_append_drop]
      exact hsorted
    exact (List.pairwise_append.mp hpw).2.2 t1 ht1 t2 ht2
  · exact ⟨(List.perm_insertionSort errLE _).symm,
      List.sorted_insertionSort errLE _⟩

/-- Witness for C1 on three collinear points: the midpoint 1 emits the
triplet (0, 1, 2) with error 0, and it is valid. -/
theorem generate_triplets_valid_witness :
    (⟨0, 1, 2, ⟨1, 0, 0, 0⟩, ⟨1, 0, 0, 0⟩, 0⟩ : Triplet) ∈
      generateTriplets
        ⟨[⟨0, 0, 0, 0⟩, ⟨1, 0, 0, 1⟩, ⟨2, 0, 0, 2⟩], false, false⟩ 3 1 1 ∧
    TripletValid ⟨[⟨0, 0, 0, 0⟩, ⟨1, 0, 0, 1⟩, ⟨2, 0, 0, 2⟩], false, false⟩
      1 ⟨0, 1, 2, ⟨1, 0, 0, 0⟩, ⟨1, 0, 0, 0⟩, 0⟩ := by
  have hknn : kNearest [⟨0, 0, 0, 0⟩, ⟨1, 0, 0, 1⟩, ⟨2, 0, 0, 2⟩]
      ⟨1, 0, 0, 1⟩ 3 = [1, 0, 2] := by
    unfold kNearest
    norm_num [squaredDist, List.range_succ]
  have hcands : candidatesForMidpoint
      ⟨[⟨0, 0, 0, 0⟩, ⟨1, 0, 0, 1⟩, ⟨2, 0, 0, 2⟩], false, false⟩ 3 1 1 =
      [⟨0, 1, 2, ⟨1, 0, 0, 0⟩, ⟨1, 0, 0, 0⟩, 0⟩] := by
    unfold candidatesForMidpoint
    dsimp only
    rw [show ([⟨0, 0, 0, 0⟩, ⟨1, 0, 0, 1⟩, ⟨2, 0, 0, 2⟩] :
        List (Point ℝ)).getD 1 default = ⟨1, 0, 0, 1⟩ from rfl]
    rw [hknn]
    norm_num [List.range_succ, tripletCandidate, squaredDist, Point.norm,
      Real.sqrt_one]
  have hmid : tripletsForMidpoint
      ⟨[⟨0, 0, 0, 0⟩, ⟨1, 0, 0, 1⟩, ⟨2, 0, 0, 2⟩], false, false⟩ 3 1 1 1 =
      [⟨0, 1, 2, ⟨1, 0, 0, 0⟩, ⟨1, 0, 0, 0⟩, 0⟩] := by
    unfold tripletsForMidpoint
    dsimp only
    rw [hcands]
    simp
  have hmem : (⟨0, 1, 2, ⟨1, 0, 0, 0⟩, ⟨1, 0, 0, 0⟩, 0⟩ : Triplet) ∈
      generateTriplets
        ⟨[⟨0, 0, 0, 0⟩, ⟨1, 0, 0, 1⟩, ⟨2, 0, 0, 2⟩], false, false⟩ 3 1 1 := by
    unfold generateTriplets
    rw [List.mem_flatMap]
    refine ⟨1, by norm_num, ?_⟩
    rw [hmid]
    simp
  exact ⟨hmem, generate_triplets_valid _ 3 1 1 _ hmem⟩

/-- Witness for C7 on four collinear points: midpoint 1 has exactly two
candidates, the insertion sort is a permissible `std::sort` outcome for
them, and with n = 1 the emission selects exactly min(1, 2) = 1 of them. -/
theorem generate_triplets_midpoint_cap_witness :
    sortedPermOf
      (candidatesForMidpoint
        ⟨[⟨0, 0, 0, 0⟩, ⟨1, 0, 0, 1⟩, ⟨2, 0, 0, 2⟩, ⟨3, 0, 0, 3⟩],
          false, false⟩ 4 1 1)
      (List.insertionSort errLE (candidatesForMidpoint
        ⟨[⟨0, 0, 0, 0⟩, ⟨1, 0, 0, 1⟩, ⟨2, 0, 0, 2⟩, ⟨3, 0, 0, 3⟩],
          false, false⟩ 4 1 1)) ∧
    ((List.insertionSort errLE (candidatesForMidpoint
        ⟨[⟨0, 0, 0, 0⟩, ⟨1, 0, 0, 1⟩, ⟨2, 0, 0, 2⟩, ⟨3, 0, 0, 3⟩],
          false, false⟩ 4 1 1)).take
      (min 1 (candidatesForMidpoint
        ⟨[⟨0, 0, 0, 0⟩, ⟨1, 0, 0, 1⟩, ⟨2, 0, 0, 2⟩, ⟨3, 0, 0, 3⟩],
          false, false⟩ 4 1 1).length)).length =
      min 1 (candidatesForMidpoint
        ⟨[⟨0, 0, 0, 0⟩, ⟨1, 0, 0, 1⟩, ⟨2, 0, 0, 2⟩, ⟨3, 0, 0, 3⟩],
          false, false⟩ 4 1 1).length ∧
    (candidatesForMidpoint
      ⟨[⟨0, 0, 0, 0⟩, ⟨1, 0, 0, 1⟩, ⟨2, 0, 0, 2⟩, ⟨3, 0, 0, 3⟩],
        false, false⟩ 4 1 1).length = 2 := by
  have h4 : Real.sqrt 4 = 2 := by
    rw [show (4 : ℝ) = 2 ^ 2 by norm_num, Real.sqrt_sq (by norm_num)]
  have hknn : kNearest
      [⟨0, 0, 0, 0⟩, ⟨1, 0, 0, 1⟩, ⟨2, 0, 0, 2⟩, ⟨3, 0, 0, 3⟩]
      ⟨1, 0, 0, 1⟩ 4 = [1, 0, 2, 3] := by
    unfold kNearest
    norm_num [squaredDist, List.range_succ]
  have hcands : candidatesForMidpoint
      ⟨[⟨0, 0, 0, 0⟩, ⟨1, 0, 0, 1⟩, ⟨2, 0, 0, 2⟩, ⟨3, 0, 0, 3⟩],
        false, false⟩ 4 1 1 =
      [⟨0, 1, 2, ⟨1, 0, 0, 0⟩, ⟨1, 0, 0, 0⟩, 0⟩,
       ⟨0, 1, 3, ⟨4/3, 0, 0, 0⟩, ⟨1, 0, 0, 0⟩, 0⟩] := by
    unfold candidatesForMidpoint
    dsimp only
    rw [show ([⟨0, 0, 0, 0⟩, ⟨1, 0, 0, 1⟩, ⟨2, 0, 0, 2⟩, ⟨3, 0, 0, 3⟩] :
        List (Point ℝ)).getD 1 default = ⟨1, 0, 0, 1⟩ from rfl]
    rw [hknn]
    norm_num [List.range_succ, tripletCandidate, squaredDist, Point.norm,
      Real.sqrt_one, h4]
  have hsp : sortedPermOf
      (candidatesForMidpoint
        ⟨[⟨0, 0, 0, 0⟩, ⟨1, 0, 0, 1⟩, ⟨2, 0, 0, 2⟩, ⟨3, 0, 0, 3⟩],
          false, false⟩ 4 1 1)
      (List.insertionSort errLE (candidatesForMidpoint
        ⟨[⟨0, 0, 0, 0⟩, ⟨1, 0, 0, 1⟩, ⟨2, 0, 0, 2⟩, ⟨3, 0, 0, 3⟩],
          false, false⟩ 4 1 1)) :=
    ⟨(List.perm_insertionSort errLE _).symm,
      List.sorted_insertionSort errLE _⟩
  refine ⟨hsp, ?_, by rw [hcands]; rfl⟩
  exact (generate_triplets_midpoint_cap
    ⟨[⟨0, 0, 0, 0⟩, ⟨1, 0, 0, 1⟩, ⟨2, 0, 0, 2⟩, ⟨3, 0, 0, 3⟩],
      false, false⟩ 4 1 1 1 _ hsp).2.1

/-- Counterexample to C7 as stated: `std::sort` is not stable, so the tie
order among equal-error candidates is not fixed by the code.  On four
collinear points, midpoint 1 generates the equal-error candidates
(0,1,2) then (0,1,3); the reversed order also satisfies the `std::sort`
contract, and with n = 1 it emits a different triplet than the
generation-order tie-break that the claim prescribes (which is what the
executable `tripletsForMidpoint` refinement produces). -/
theorem generate_triplets_midpoint_cap_counterexample :
    sortedPermOf
      (candidatesForMidpoint
        ⟨[⟨0, 0, 0, 0⟩, ⟨1, 0, 0, 1⟩, ⟨2, 0, 0, 2⟩, ⟨3, 0, 0, 3⟩],
          false, false⟩ 4 1 1)
      [⟨0, 1, 3, ⟨4/3, 0, 0, 0⟩, ⟨1, 0, 0, 0⟩, 0⟩,
       ⟨0, 1, 2, ⟨1, 0, 0, 0⟩, ⟨1, 0, 0, 0⟩, 0⟩] ∧
    ([⟨0, 1, 3, ⟨4/3, 0, 0, 0⟩, ⟨1, 0, 0, 0⟩, 0⟩,
      ⟨0, 1, 2, ⟨1, 0, 0, 0⟩, ⟨1, 0, 0, 0⟩, 0⟩] : List Triplet).take
        (min 1 (candidatesForMidpoint
          ⟨[⟨0, 0, 0, 0⟩, ⟨1, 0, 0, 1⟩, ⟨2, 0, 0, 2⟩, ⟨3, 0, 0, 3⟩],
            false, false⟩ 4 1 1).length) ≠
      tripletsForMidpoint
        ⟨[⟨0, 0, 0, 0⟩, ⟨1, 0, 0, 1⟩, ⟨2, 0, 0, 2⟩, ⟨3, 0, 0, 3⟩],
          false, false⟩ 4 1 1 1 := by
  have h4 : Real.sqrt 4 = 2 := by
    rw [show (4 : ℝ) = 2 ^ 2 by norm_num, Real.sqrt_sq (by norm_num)]
  have hknn : kNearest
      [⟨0, 0, 0, 0⟩, ⟨1, 0, 0, 1⟩, ⟨2, 0, 0, 2⟩, ⟨3, 0, 0, 3⟩]
      ⟨1, 0, 0, 1⟩ 4 = [1, 0, 2, 3] := by
    unfold kNearest
    norm_num [squaredDist, List.range_succ]
  have hcands : candidatesForMidpoint
      ⟨[⟨0, 0, 0, 0⟩, ⟨1, 0, 0, 1⟩, ⟨2, 0, 0, 2⟩, ⟨3, 0, 0, 3⟩],
        false, false⟩ 4 1 1 =
      [⟨0, 1, 2, ⟨1, 0, 0, 0⟩, ⟨1, 0, 0, 0⟩, 0⟩,
       ⟨0, 1, 3, ⟨4/3, 0, 0, 0⟩, ⟨1, 0, 0, 0⟩, 0⟩] := by
    unfold candidatesForMidpoint
    dsimp only
    rw [show ([⟨0, 0, 0, 0⟩, ⟨1, 0, 0, 1⟩, ⟨2, 0, 0, 2⟩, ⟨3, 0, 0, 3⟩] :
        List (Point ℝ)).getD 1 default = ⟨1, 0, 0, 1⟩ from rfl]
    rw [hknn]
    norm_num [List.range_succ, tripletCandidate, squaredDist, Point.norm,
      Real.sqrt_one, h4]
  have hmid : tripletsForMidpoint
      ⟨[⟨0, 0, 0, 0⟩, ⟨1, 0, 0, 1⟩, ⟨2, 0, 0, 2⟩, ⟨3, 0, 0, 3⟩],
        false, false⟩ 4 1 1 1 =
      [⟨0, 1, 2, ⟨1, 0, 0, 0⟩, ⟨1, 0, 0, 0⟩, 0⟩] := by
    unfold tripletsForMidpoint
    dsimp only
    rw [hcands]
    norm_num [List.insertionSort, List.orderedInsert, errLE]
  constructor
  · constructor
    · rw [hcands]
      exact List.Perm.swap _ _ _
    · refine List.pairwise_cons.mpr ⟨?_, List.pairwise_singleton _ _⟩
      intro t ht
      rw [List.mem_singleton.mp ht]
      unfold errLE
      norm_num
  · rw [hcands, hmid]
    intro h
    simp [Triplet.mk.injEq] at h

/-- Witness for C6 with three triplets and labels [0, 1, 0]. -/
theorem compute_hc_partition_witness :
    (∀ l ∈ [0, 1, 0], l < 2) ∧
      ((buildClusterGroup 2 [0, 1, 0]).length = 2 ∧
      (∀ i, i < [0, 1, 0].length →
        (buildClusterGroup 2 [0, 1, 0]).countP
          (fun K => decide (i ∈ K)) = 1) ∧
      (∀ K, K ∈ buildClusterGroup 2 [0, 1, 0] → ∀ i, i ∈ K →
        i < [0, 1, 0].length)) :=
  ⟨by decide, compute_hc_partition 2 [0, 1, 0] (by decide)⟩

section GraphLemmas

variable {α : Type}

theorem edgeAdj_symm {E : List (Edge α)} {u v : ℕ} (h : edgeAdj E u v) :
    edgeAdj E v u := by
  obtain ⟨e, he, hp⟩ := h
  exact ⟨e, he, hp.symm⟩

theorem conn_refl (E : List (Edge α)) (u : ℕ) : conn E u u :=
  Relation.ReflTransGen.refl

theorem conn_trans {E : List (Edge α)} {u v w : ℕ} (h1 : conn E u v)
    (h2 : conn E v w) : conn E u w :=
  Relation.ReflTransGen.trans h1 h2

theorem conn_single {E : List (Edge α)} {u v : ℕ} (h : edgeAdj E u v) :
    conn E u v := Relation.ReflTransGen.single h

theorem conn_symm {E : List (Edge α)} {u v : ℕ} (h : conn E u v) :
    conn E v u := by
  induction h with
  | refl => exact conn_refl E u
  | @tail b c _ hbc ih =>
    exact conn_trans (conn_single (edgeAdj_symm hbc)) ih

theorem conn_mono {E E' : List (Edge α)} (hsub : ∀ e ∈ E, e ∈ E')
    {u v : ℕ} (h : conn E u v) : conn E' u v := by
  refine Relation.ReflTransGen.mono ?_ h
  intro a b hab
  obtain ⟨e, he, hp⟩ := hab
  exact ⟨e, hsub e he, hp⟩

theorem conn_nil {u v : ℕ} (h : conn ([] : List (Edge α)) u v) : u = v := by
  induction h with
  | refl => rfl
  | @tail b c _ hbc _ =>
    obtain ⟨e, he, _⟩ := hbc
    exact absurd he (List.not_mem_nil e)

theorem conn_append_single {E : List (Edge α)} {f : Edge α} {u v : ℕ}
    (h : conn (E ++ [f]) u v) :
    conn E u v ∨ (conn E u f.src ∧ conn E f.dest v) ∨
      (conn E u f.dest ∧ conn E f.src v) := by
  induction h with
  | refl => exact Or.inl (conn_refl E u)
  | @tail b c _ hbc ih =>
    obtain ⟨e, he, hp⟩ := hbc
    rcases List.mem_append.mp he with heE | hef
    · have hstep : edgeAdj E b c := ⟨e, heE, hp⟩
      rcases ih with h1 | ⟨h1, h2⟩ | ⟨h1, h2⟩
      · exact Or.inl (conn_trans h1 (conn_single hstep))
      · exact Or.inr (Or.inl ⟨h1, conn_trans h2 (conn_single hstep)⟩)
      · exact Or.inr (Or.inr ⟨h1, conn_trans h2 (conn_single hstep)⟩)
    · have hef' : e = f := List.mem_singleton.mp hef
      subst hef'
      rcases hp with ⟨hs, hd⟩ | ⟨hs, hd⟩
      · subst hs
        subst hd
        rcases ih with h1 | ⟨h1, h2⟩ | ⟨h1, h2⟩
        · exact Or.inr (Or.inl ⟨h1, conn_refl _ _⟩)
        · exact Or.inr (Or.inl ⟨h1, conn_refl _ _⟩)
        · exact Or.inl h1
      · subst hs
        subst hd
        rcases ih with h1 | ⟨h1, h2⟩ | ⟨h1, h2⟩
        · exact Or.inr (Or.inr ⟨h1, conn_refl _ _⟩)
        · exact Or.inl h1
        · exact Or.inr (Or.inr ⟨h1, conn_refl _ _⟩)

theorem conn_append_of_left {E : List (Edge α)} {f : Edge α} {u v : ℕ}
    (h : conn E u v) : conn (E ++ [f]) u v :=
  conn_mono (fun e he => List.mem_append.mpr (Or.inl he)) h

theorem conn_append_of_cross {E : List (Edge α)} {f : Edge α} {u v : ℕ}
    (h1 : conn E u f.src) (h2 : conn E f.dest v) : conn (E ++ [f]) u v := by
  refine conn_trans (conn_append_of_left h1) ?_
  refine conn_trans (conn_single ⟨f, List.mem_append.mpr (Or.inr
    (List.mem_singleton.mpr rfl)), Or.inl ⟨rfl, rfl⟩⟩) ?_
  exact conn_append_of_left h2

theorem conn_append_of_cross' {E : List (Edge α)} {f : Edge α} {u v : ℕ}
    (h1 : conn E u f.dest) (h2 : conn E f.src v) : conn (E ++ [f]) u v := by
  refine conn_trans (conn_append_of_left h1) ?_
  refine conn_trans (conn_single ⟨f, List.mem_append.mpr (Or.inr
    (List.mem_singleton.mpr rfl)), Or.inr ⟨rfl, rfl⟩⟩) ?_
  exact conn_append_of_left h2

theorem split_append_singleton {β : Type} {l : List β} {x : β} {A B : List β}
    {f : β} (h : l ++ [x] = A ++ f :: B) :
    (A = l ∧ f = x ∧ B = []) ∨ ∃ B', B = B' ++ [x] ∧ l = A ++ f :: B' := by
  rcases List.eq_nil_or_concat B with rfl | ⟨B', y, rfl⟩
  · left
    obtain ⟨h1, h2⟩ := List.append_inj' h rfl
    have h3 : x = f := by simpa using h2
    exact ⟨h1.symm, h3.symm, rfl⟩
  · right
    have h' : l ++ [x] = (A ++ f :: B') ++ [y] := by rw [h]; simp
    obtain ⟨h1, h2⟩ := List.append_inj' h' rfl
    have h3 : x = y := by simpa using h2
    exact ⟨B', by rw [h3]; exact List.concat_eq_append _ _, h1⟩

theorem mstGo_spec (n : ℕ) :
    ∀ (edges : List (Edge α)) (groups : List ℕ) (acc : List (Edge α)),
      groups.length = n →
      (∀ e ∈ edges, e.src < n ∧ e.dest < n) →
      (∀ i, i < n → ∀ j, j < n →
        (groups.getD i 0 = groups.getD j 0 ↔ conn acc i j)) →
      IsForest acc →
      (∃ sel, mstGo groups acc edges = acc ++ sel ∧
        List.Sublist sel edges) ∧
      IsForest (mstGo groups acc edges) := by
  intro edges
  induction edges with
  | nil =>
    intro groups acc _ _ _ hforest
    exact ⟨⟨[], by simp [mstGo], List.Sublist.refl _⟩, by
      simpa [mstGo] using hforest⟩
  | cons e rest ih =>
    intro groups acc hlen hbounds hinv hforest
    have hsrc : e.src < n := (hbounds e (by simp)).1
    have hdest : e.dest < n := (hbounds e (by simp)).2
    have hbounds' : ∀ f ∈ rest, f.src < n ∧ f.dest < n := fun f hf =>
      hbounds f (by simp [hf])
    have hred : mstGo groups acc (e :: rest) =
        if groups.getD e.src 0 = groups.getD e.dest 0 then
          mstGo groups acc rest
        else mstGo (groups.map (fun g =>
          if g = groups.getD e.dest 0 then groups.getD e.src 0 else g))
          (acc ++ [e]) rest := rfl
    by_cases hg : groups.getD e.src 0 = groups.getD e.dest 0
    · rw [hred, if_pos hg]
      obtain ⟨⟨sel, hsel, hsub⟩, hforest'⟩ :=
        ih groups acc hlen hbounds' hinv hforest
      exact ⟨⟨sel, hsel, hsub.cons e⟩, hforest'⟩
    · rw [hred, if_neg hg]
      have hnotconn : ¬ conn acc e.src e.dest :=
        fun hc => hg ((hinv e.src hsrc e.dest hdest).mpr hc)
      have hlen' : (groups.map (fun g =>
          if g = groups.getD e.dest 0 then groups.getD e.src 0 else
            g)).length = n := by
        rw [List.length_map, hlen]
      have hmap : ∀ i, i < n → (groups.map (fun g =>
          if g = groups.getD e.dest 0 then groups.getD e.src 0 else
            g)).getD i 0 =
          (if groups.getD i 0 = groups.getD e.dest 0 then
            groups.getD e.src 0 else groups.getD i 0) := by
        intro i hi
        have h1 : i < groups.length := by rw [hlen]; exact hi
        have h2 : i < (groups.map (fun g =>
            if g = groups.getD e.dest 0 then groups.getD e.src 0 else
              g)).length := by rw [List.length_map]; exact h1
        rw [List.getD_eq_getElem _ _ h2, List.getElem_map,
          List.getD_eq_getElem _ _ h1]
      have htoa : ∀ i, i < n →
          (groups.getD i 0 = groups.getD e.src 0 ↔ conn acc i e.src) :=
        fun i hi => hinv i hi e.src hsrc
      have htob : ∀ i, i < n →
          (groups.getD i 0 = groups.getD e.dest 0 ↔ conn acc i e.dest) :=
        fun i hi => hinv i hi e.dest hdest
      have hinv' : ∀ i, i < n → ∀ j, j < n →
          ((groups.map (fun g =>
            if g = groups.getD e.dest 0 then groups.getD e.src 0 else
              g)).getD i 0 =
           (groups.map (fun g =>
            if g = groups.getD e.dest 0 then groups.getD e.src 0 else
              g)).getD j 0 ↔
           conn (acc ++ [e]) i j) := by
        intro i hi j hj
        rw [hmap i hi, hmap j hj]
        by_cases hib : groups.getD i 0 = groups.getD e.dest 0 <;>
          by_cases hjb : groups.getD j 0 = groups.getD e.dest 0
        · rw [if_pos hib, if_pos hjb]
          have hic : conn acc i e.dest := (htob i hi).mp hib
          have hjc : conn acc j e.dest := (htob j hj).mp hjb
          constructor
          · intro _
            exact conn_append_of_left (conn_trans hic (conn_symm hjc))
          · intro _
            rfl
        · rw [if_pos hib, if_neg hjb]
          have hic : conn acc i e.dest := (htob i hi).mp hib
          constructor
          · intro heq
            have hjc : conn acc j e.src := (htoa j hj).mp heq.symm
            exact conn_append_of_cross' hic (conn_symm hjc)
          · intro hc
            rcases conn_append_single hc with h1 | ⟨h1, h2⟩ | ⟨h1, h2⟩
            · exact absurd (((hinv i hi j hj).mpr h1).symm.trans hib) hjb
            · exact absurd (((htoa i hi).mpr h1).symm.trans hib) hg
            · exact ((htoa j hj).mpr (conn_symm h2)).symm
        · rw [if_neg hib, if_pos hjb]
          have hjc : conn acc j e.dest := (htob j hj).mp hjb
          constructor
          · intro heq
            have hic : conn acc i e.src := (htoa i hi).mp heq
            exact conn_append_of_cross hic (conn_symm hjc)
          · intro hc
            rcases conn_append_single hc with h1 | ⟨h1, h2⟩ | ⟨h1, h2⟩
            · exact absurd (((hinv i hi j hj).mpr h1).trans hjb) hib
            · exact (htoa i hi).mpr h1
            · exact absurd ((htob i hi).mpr h1) hib
        · rw [if_neg hib, if_neg hjb]
          constructor
          · intro heq
            exact conn_append_of_left ((hinv i hi j hj).mp heq)
          · intro hc
            rcases conn_append_single hc with h1 | ⟨h1, h2⟩ | ⟨h1, h2⟩
            · exact (hinv i hi j hj).mpr h1
            · exact absurd ((htob j hj).mpr (conn_symm h2)) hjb
            · exact absurd ((htob i hi).mpr h1) hib
      have hforest' : IsForest (acc ++ [e]) := by
        intro A f B hAB
        rcases split_append_singleton hAB with
          ⟨hA, hf, _⟩ | ⟨B', _, hacc⟩
        · rw [hA, hf]
          exact hnotconn
        · exact hforest A f B' hacc
      obtain ⟨⟨sel, hsel, hsub⟩, hforestr⟩ :=
        ih _ (acc ++ [e]) hlen' hbounds' hinv' hforest'
      refine ⟨⟨e :: sel, by rw [hsel]; simp, hsub.cons₂ e⟩, hforestr⟩

theorem range_getD_self {n i : ℕ} (hi : i < n) :
    (List.range n).getD i 0 = i := by
  rw [List.getD_eq_getElem _ _ (by simpa using hi)]
  simp

theorem mst_spec (edges : List (Edge α)) (n : ℕ)
    (hbounds : ∀ e ∈ edges, e.src < n ∧ e.dest < n) :
    List.Sublist (mst edges n) edges ∧ IsForest (mst edges n) := by
  have h := mstGo_spec n edges (List.range n) [] (by simp) hbounds
    (by
      intro i hi j hj
      rw [range_getD_self hi, range_getD_self hj]
      constructor
      · rintro rfl
        exact conn_refl _ _
      · intro hc
        exact conn_nil hc)
    (by
      intro A e B hAB
      exact absurd hAB (by simp))
  obtain ⟨⟨sel, hsel, hsub⟩, hforest⟩ := h
  constructor
  · unfold mst
    rw [hsel]
    simpa using hsub
  · unfold mst
    exact hforest

theorem isForest_acyclic :
    ∀ (E : List (Edge α)), IsForest E →
      ∀ A e B, E = A ++ e :: B → ¬ conn (A ++ B) e.src e.dest := by
  intro E
  induction E using List.reverseRecOn with
  | nil =>
    intro _ A e B hAB
    exact absurd hAB (by simp)
  | append_singleton E' f ih =>
    intro hf A e B hAB
    have hf' : IsForest E' := fun A' e' B' h' =>
      hf A' e' (B' ++ [f]) (by rw [h']; simp)
    have hlast : ¬ conn E' f.src f.dest := hf E' f [] (by simp)
    rcases split_append_singleton hAB with ⟨hA, he, hB⟩ | ⟨B', hB, hE'⟩
    · rw [hB, List.append_nil, hA, he]
      exact hlast
    · rw [hB]
      intro hconn
      have hconn' : conn ((A ++ B') ++ [f]) e.src e.dest := by
        rw [List.append_assoc]
        exact hconn
      have hmemE' : ∀ g ∈ (A ++ B') ++ [e], g ∈ E' := by
        intro g hg
        rw [hE']
        rcases List.mem_append.mp hg with hga | hgb
        · rcases List.mem_append.mp hga with h | h
          · exact List.mem_append.mpr (Or.inl h)
          · exact List.mem_append.mpr (Or.inr (List.mem_cons_of_mem _ h))
        · have hge : g = e := List.mem_singleton.mp hgb
          rw [hge]
          simp
      rcases conn_append_single hconn' with h1 | ⟨h1, h2⟩ | ⟨h1, h2⟩
      · exact ih hf' A e B' hE' h1
      · have hstep : conn ((A ++ B') ++ [e]) f.src f.dest :=
          conn_append_of_cross (conn_symm h1) (conn_symm h2)
        exact hlast (conn_mono hmemE' hstep)
      · have hstep : conn ((A ++ B') ++ [e]) f.src f.dest :=
          conn_append_of_cross' h2 h1
        exact hlast (conn_mono hmemE' hstep)

theorem removeEdge_weight [LinearOrderedField α] {E : List (Edge α)}
    {dmax : α} {f : Edge α} (hf : f ∈ removeEdge E dmax) :
    f ∈ E ∧ ¬ dmax * dmax < f.weight := by
  refine ⟨List.mem_of_mem_filter hf, ?_⟩
  have := List.of_mem_filter hf
  simpa using this

theorem pruned_before_deleted [LinearOrderedField α] {E : List (Edge α)}
    (hsorted : List.Pairwise weightLE E) {dmax : α} {e : Edge α}
    {A B : List (Edge α)} (hAB : E = A ++ e :: B)
    (hw : dmax * dmax < e.weight) :
    ∀ f ∈ removeEdge E dmax, f ∈ A := by
  intro f hf
  obtain ⟨hfE, hfw⟩ := removeEdge_weight hf
  rw [hAB] at hfE
  rcases List.mem_append.mp hfE with h | h
  · exact h
  · rcases List.mem_cons.mp h with h | h
    · rw [h] at hfw
      exact absurd hw hfw
    · have hpair : weightLE e f := by
        rw [hAB] at hsorted
        have h2 := (List.pairwise_append.mp hsorted).2.1
        exact (List.pairwise_cons.mp h2).1 f h
      unfold weightLE at hpair
      exact absurd (lt_of_lt_of_le hw hpair) hfw

theorem separation_core [LinearOrderedField α] {E : List (Edge α)}
    (hsorted : List.Pairwise weightLE E) (hforest : IsForest E)
    (dmax : α) :
    ∀ e ∈ E, dmax * dmax < e.weight →
      ¬ conn (removeEdge E dmax) e.src e.dest := by
  intro e he hw hconn
  obtain ⟨A, B, hAB⟩ := List.append_of_mem he
  have hsub := pruned_before_deleted hsorted hAB hw
  exact hforest A e B hAB (conn_mono hsub hconn)

theorem getD_set_self {β : Type} (l : List β) (i : ℕ) (x d : β)
    (hi : i < l.length) : (l.set i x).getD i d = x := by
  rw [List.getD_eq_getElem _ _ (by rw [List.length_set]; exact hi)]
  exact List.getElem_set_self _

theorem getD_set_ne {β : Type} (l : List β) {i j : ℕ} (h : i ≠ j)
    (x d : β) : (l.set i x).getD j d = l.getD j d := by
  rw [List.getD_eq_getElem?_getD, List.getD_eq_getElem?_getD,
    List.getElem?_set_ne h]

theorem createEdges_bounds [LinearOrderedField α] (cloud : List (Point α))
    (cluster : List ℕ) :
    ∀ e ∈ createEdges cloud cluster,
      e.src < e.dest ∧ e.dest < cluster.length := by
  intro e he
  unfold createEdges at he
  have he' := (List.perm_insertionSort weightLE _).subset he
  rw [List.mem_flatMap] at he'
  obtain ⟨v1, hv1, he'⟩ := he'
  rw [List.mem_map] at he'
  obtain ⟨v2, hv2, rfl⟩ := he'
  constructor
  · obtain ⟨i, hi, hv2'⟩ := List.getElem_of_mem hv2
    rw [List.getElem_drop] at hv2'
    have hlt : v1 + 1 + i < cluster.length := by
      have := List.length_drop (v1 + 1) (List.range cluster.length)
      simp only [List.length_range] at this
      omega
    rw [List.getElem_range] at hv2'
    simp only []
    omega
  · have := List.mem_of_mem_drop hv2
    simpa using this

theorem createEdges_sorted [LinearOrderedField α] (cloud : List (Point α))
    (cluster : List ℕ) :
    List.Pairwise weightLE (createEdges cloud cluster) :=
  List.sorted_insertionSort weightLE _

theorem createAdj_length (n : ℕ) (E : List (Edge α)) :
    (createAdj n E).length = n := by
  unfold createAdj
  suffices h : ∀ (E : List (Edge α)) (adj0 : List (List ℕ)),
      (E.foldl (fun adj e =>
        let adj1 := adj.set e.src (adj.getD e.src [] ++ [e.dest])
        adj1.set e.dest (adj1.getD e.dest [] ++ [e.src])) adj0).length =
      adj0.length by
    rw [h]
    simp
  intro E
  induction E with
  | nil => intro adj0; rfl
  | cons e rest ih =>
    intro adj0
    rw [List.foldl_cons, ih]
    simp

theorem createAdj_getD_aux (v : ℕ) :
    ∀ (E : List (Edge α)), (∀ e ∈ E, e.src ≠ e.dest) →
    ∀ (adj0 : List (List ℕ)),
      (∀ e ∈ E, e.src < adj0.length ∧ e.dest < adj0.length) →
      (E.foldl (fun adj e =>
        let adj1 := adj.set e.src (adj.getD e.src [] ++ [e.dest])
        adj1.set e.dest (adj1.getD e.dest [] ++ [e.src])) adj0).getD v [] =
      adj0.getD v [] ++ E.filterMap (fun e =>
        if e.src = v then some e.dest else
        if e.dest = v then some e.src else none) := by
  intro E
  induction E with
  | nil =>
    intro _ adj0 _
    simp
  | cons e rest ih =>
    intro hb adj0 hlen
    have hne : e.src ≠ e.dest := hb e (by simp)
    have hsrc : e.src < adj0.length := (hlen e (by simp)).1
    have hdest : e.dest < adj0.length := (hlen e (by simp)).2
    rw [List.foldl_cons]
    dsimp only
    have hlen2 : ∀ f ∈ rest, f.src <
        ((adj0.set e.src (adj0.getD e.src [] ++ [e.dest])).set e.dest
          ((adj0.set e.src (adj0.getD e.src [] ++ [e.dest])).getD
            e.dest [] ++ [e.src])).length ∧ f.dest <
        ((adj0.set e.src (adj0.getD e.src [] ++ [e.dest])).set e.dest
          ((adj0.set e.src (adj0.getD e.src [] ++ [e.dest])).getD
            e.dest [] ++ [e.src])).length := by
      intro f hf
      have := hlen f (by simp [hf])
      simpa using this
    rw [ih (fun f hf => hb f (by simp [hf])) _ hlen2]
    rw [List.filterMap_cons]
    by_cases hv1 : e.src = v
    · have hv2 : e.dest ≠ v := fun h => hne (hv1.trans h.symm)
      have hgd : ((adj0.set e.src (adj0.getD e.src [] ++ [e.dest])).set
          e.dest ((adj0.set e.src (adj0.getD e.src [] ++ [e.dest])).getD
            e.dest [] ++ [e.src])).getD v [] =
          adj0.getD v [] ++ [e.dest] := by
        rw [getD_set_ne _ hv2, ← hv1, getD_set_self _ _ _ _ hsrc, hv1]
      rw [hgd]
      simp only [hv1, if_pos rfl]
      simp
    · by_cases hv2 : e.dest = v
      · have hgd : ((adj0.set e.src (adj0.getD e.src [] ++ [e.dest])).set
            e.dest ((adj0.set e.src
              (adj0.getD e.src [] ++ [e.dest])).getD e.dest [] ++
              [e.src])).getD v [] =
            adj0.getD v [] ++ [e.src] := by
          rw [← hv2, getD_set_self _ _ _ _ (by simpa using hdest),
            getD_set_ne _ hne, hv2]
        rw [hgd]
        rw [if_neg hv1, if_pos hv2]
        simp
      · have hgd : ((adj0.set e.src (adj0.getD e.src [] ++ [e.dest])).set
            e.dest ((adj0.set e.src
              (adj0.getD e.src [] ++ [e.dest])).getD e.dest [] ++
              [e.src])).getD v [] =
            adj0.getD v [] := by
          rw [getD_set_ne _ hv2, getD_set_ne _ hv1]
        rw [hgd]
        rw [if_neg hv1, if_neg hv2]

theorem createAdj_getD (n : ℕ) (E : List (Edge α))
    (hb : ∀ e ∈ E, e.src ≠ e.dest)
    (hlt : ∀ e ∈ E, e.src < n ∧ e.dest < n) (v : ℕ) :
    (createAdj n E).getD v [] = E.filterMap (fun e =>
      if e.src = v then some e.dest else
      if e.dest = v then some e.src else none) := by
  unfold createAdj
  rw [createAdj_getD_aux v E hb (List.replicate n [])
    (by simpa using hlt)]
  simp

theorem filter_split {β : Type} (p : β → Bool) :
    ∀ (E A' : List β) (e : β) (B' : List β),
      E.filter p = A' ++ e :: B' →
      ∃ A B, E = A ++ e :: B ∧ A.filter p = A' := by
  intro E
  induction E with
  | nil =>
    intro A' e B' h
    rw [List.filter_nil] at h
    exact absurd h.symm (by simp)
  | cons x rest ih =>
    intro A' e B' h
    rw [List.filter_cons] at h
    by_cases hp : p x
    · rw [if_pos hp] at h
      cases A' with
      | nil =>
        rw [List.nil_append] at h
        have h1 : x = e := (List.cons_eq_cons.mp h).1
        refine ⟨[], rest, ?_, by simp⟩
        rw [List.nil_append, h1]
      | cons a A'' =>
        have h1 : x = a := (List.cons_eq_cons.mp h).1
        have h2 : rest.filter p = A'' ++ e :: B' :=
          (List.cons_eq_cons.mp h).2
        obtain ⟨A, B, hE, hA⟩ := ih A'' e B' h2
        refine ⟨x :: A, B, by rw [hE, List.cons_append], ?_⟩
        rw [List.filter_cons, if_pos hp, hA, h1]
    · rw [if_neg hp] at h
      obtain ⟨A, B, hE, hA⟩ := ih A' e B' h
      refine ⟨x :: A, B, by rw [hE, List.cons_append], ?_⟩
      rw [List.filter_cons, if_neg hp, hA]

theorem isForest_filter {E : List (Edge α)} (hf : IsForest E)
    (p : Edge α → Bool) : IsForest (E.filter p) := by
  intro A e B hAB
  obtain ⟨A', B', hE, hA⟩ := filter_split p E A e B hAB
  intro hc
  refine hf A' e B' hE ?_
  refine conn_mono ?_ hc
  intro f hfA
  rw [← hA] at hfA
  exact List.mem_of_mem_filter hfA

theorem isForest_pairwise_ne :
    ∀ {E : List (Edge α)}, IsForest E →
      List.Pairwise (fun e1 e2 => ¬ samePair e1 e2) E := by
  intro E
  induction E with
  | nil => intro _; exact List.Pairwise.nil
  | cons e rest ih =>
    intro hf
    have hftail : IsForest rest := by
      intro A f B h hc
      refine hf (e :: A) f B (by rw [h, List.cons_append]) ?_
      exact conn_mono (fun g hg => List.mem_cons_of_mem e hg) hc
    refine List.pairwise_cons.mpr ⟨?_, ih hftail⟩
    intro f hfmem hsame
    obtain ⟨A, B, hrest⟩ := List.append_of_mem hfmem
    refine hf (e :: A) f B (by rw [hrest, List.cons_append]) ?_
    refine conn_single ⟨e, by simp, ?_⟩
    rcases hsame with ⟨h1, h2⟩ | ⟨h1, h2⟩
    · exact Or.inl ⟨h1, h2⟩
    · exact Or.inr ⟨h1, h2⟩

theorem filterMap_pair_nodup (v : ℕ) :
    ∀ (E : List (Edge α)),
      List.Pairwise (fun e1 e2 => ¬ samePair e1 e2) E →
      (E.filterMap (fun e =>
        if e.src = v then some e.dest else
        if e.dest = v then some e.src else none)).Nodup := by
  intro E
  induction E with
  | nil => intro _; simp
  | cons e rest ih =>
    intro hpw
    obtain ⟨hhead, htail⟩ := List.pairwise_cons.mp hpw
    rw [List.filterMap_cons]
    have hsame_of_mem : ∀ w, w ∈ rest.filterMap (fun e =>
        if e.src = v then some e.dest else
        if e.dest = v then some e.src else none) →
        ∀ g ∈ rest, ((if g.src = v then some g.dest else
          if g.dest = v then some g.src else none) = some w) → True := by
      intro _ _ _ _ _
      trivial
    by_cases h1 : e.src = v
    · simp only [if_pos h1]
      refine List.nodup_cons.mpr ⟨?_, ih htail⟩
      intro hmem
      rw [List.mem_filterMap] at hmem
      obtain ⟨g, hg, hmatch⟩ := hmem
      refine hhead g hg ?_
      by_cases hg1 : g.src = v
      · rw [if_pos hg1] at hmatch
        exact Or.inl ⟨h1.trans hg1.symm, (Option.some_inj.mp hmatch).symm⟩
      · by_cases hg2 : g.dest = v
        · rw [if_neg hg1, if_pos hg2] at hmatch
          exact Or.inr ⟨h1.trans hg2.symm, (Option.some_inj.mp hmatch).symm⟩
        · rw [if_neg hg1, if_neg hg2] at hmatch
          exact absurd hmatch (by simp)
    · by_cases h2 : e.dest = v
      · simp only [if_neg h1, if_pos h2]
        refine List.nodup_cons.mpr ⟨?_, ih htail⟩
        intro hmem
        rw [List.mem_filterMap] at hmem
        obtain ⟨g, hg, hmatch⟩ := hmem
        refine hhead g hg ?_
        by_cases hg1 : g.src = v
        · rw [if_pos hg1] at hmatch
          exact Or.inr ⟨(Option.some_inj.mp hmatch).symm, h2.trans hg1.symm⟩
        · by_cases hg2 : g.dest = v
          · rw [if_neg hg1, if_pos hg2] at hmatch
            exact Or.inl ⟨(Option.some_inj.mp hmatch).symm,
              h2.trans hg2.symm⟩
          · rw [if_neg hg1, if_neg hg2] at hmatch
            exact absurd hmatch (by simp)
      · simp only [if_neg h1, if_neg h2]
        exact ih htail

theorem adjList_nodup (n : ℕ) {E : List (Edge α)} (hf : IsForest E)
    (hb : ∀ e ∈ E, e.src ≠ e.dest)
    (hlt : ∀ e ∈ E, e.src < n ∧ e.dest < n) (v : ℕ) :
    ((createAdj n E).getD v []).Nodup := by
  rw [createAdj_getD n E hb hlt v]
  exact filterMap_pair_nodup v E (isForest_pairwise_ne hf)

theorem adjList_mem (n : ℕ) {E : List (Edge α)}
    (hb : ∀ e ∈ E, e.src ≠ e.dest)
    (hlt : ∀ e ∈ E, e.src < n ∧ e.dest < n) (v u : ℕ) :
    (u ∈ (createAdj n E).getD v [] ↔ edgeAdj E v u) := by
  rw [createAdj_getD n E hb hlt v]
  rw [List.mem_filterMap]
  constructor
  · rintro ⟨e, he, hmatch⟩
    refine ⟨e, he, ?_⟩
    by_cases hg1 : e.src = v
    · rw [if_pos hg1] at hmatch
      exact Or.inl ⟨hg1, Option.some_inj.mp hmatch⟩
    · by_cases hg2 : e.dest = v
      · rw [if_neg hg1, if_pos hg2] at hmatch
        exact Or.inr ⟨Option.some_inj.mp hmatch, hg2⟩
      · rw [if_neg hg1, if_neg hg2] at hmatch
        exact absurd hmatch (by simp)
  · rintro ⟨e, he, hp⟩
    refine ⟨e, he, ?_⟩
    rcases hp with ⟨h1, h2⟩ | ⟨h1, h2⟩
    · rw [if_pos h1, h2]
    · rw [if_neg (fun h => hb e he (h.trans h2.symm)), if_pos h2, h1]

theorem edgeAdj_lt {n : ℕ} {E : List (Edge α)}
    (hlt : ∀ e ∈ E, e.src < n ∧ e.dest < n) {v u : ℕ}
    (h : edgeAdj E v u) : v < n ∧ u < n := by
  obtain ⟨e, he, hp⟩ := h
  obtain ⟨hs, hd⟩ := hlt e he
  rcases hp with ⟨h1, h2⟩ | ⟨h1, h2⟩
  · rw [← h1, ← h2]
    exact ⟨hs, hd⟩
  · rw [← h1, ← h2]
    exact ⟨hd, hs⟩

theorem connVia_symm {E : List (Edge α)} {visited : List Bool} {p q : ℕ}
    (h : connVia E visited p q) : connVia E visited q p := by
  induction h with
  | refl => exact Relation.ReflTransGen.refl
  | @tail b c _ hbc ih =>
    exact Relation.ReflTransGen.trans
      (Relation.ReflTransGen.single ⟨edgeAdj_symm hbc.1, hbc.2.2, hbc.2.1⟩)
      ih

theorem connVia_mono_vis {E : List (Edge α)} {v1 v2 : List Bool}
    (hmono : ∀ u, v1.getD u false = true → v2.getD u false = true)
    {p q : ℕ} (h : connVia E v1 p q) : connVia E v2 p q := by
  refine Relation.ReflTransGen.mono ?_ h
  rintro a b ⟨h1, h2, h3⟩
  exact ⟨h1, hmono a h2, hmono b h3⟩

theorem connVia_trans {E : List (Edge α)} {visited : List Bool} {p q r : ℕ}
    (h1 : connVia E visited p q) (h2 : connVia E visited q r) :
    connVia E visited p r :=
  Relation.ReflTransGen.trans h1 h2

theorem connVia_of_closed {E : List (Edge α)} {visited : List Bool}
    (hclosed : ∀ u, visited.getD u false = true → ∀ w, edgeAdj E u w →
      visited.getD w false = true)
    {p q : ℕ} (hp : visited.getD p false = true) (hconn : conn E p q) :
    connVia E visited p q ∧ visited.getD q false = true := by
  induction hconn with
  | refl => exact ⟨Relation.ReflTransGen.refl, hp⟩
  | @tail b c _ hbc ih =>
    have hb := ih.2
    have hc := hclosed b hb c hbc
    exact ⟨Relation.ReflTransGen.tail ih.1 ⟨hbc, hb, hc⟩, hc⟩

theorem conn_of_connVia {E : List (Edge α)} {visited : List Bool} {p q : ℕ}
    (h : connVia E visited p q) : conn E p q := by
  refine Relation.ReflTransGen.mono ?_ h
  rintro a b ⟨h1, _, _⟩
  exact h1

theorem edgeAdj_in_rest {E A B : List (Edge α)} {e0 : Edge α}
    (hsplit : E = A ++ e0 :: B) {x y : ℕ} (h : edgeAdj E x y)
    (hne : ¬ ((x = e0.src ∧ y = e0.dest) ∨ (x = e0.dest ∧ y = e0.src))) :
    edgeAdj (A ++ B) x y := by
  obtain ⟨f, hf, hp⟩ := h
  have hfne : f ≠ e0 := by
    intro hfe
    subst hfe
    rcases hp with ⟨h1, h2⟩ | ⟨h1, h2⟩
    · exact hne (Or.inl ⟨h1.symm, h2.symm⟩)
    · exact hne (Or.inr ⟨h2.symm, h1.symm⟩)
  rw [hsplit] at hf
  rcases List.mem_append.mp hf with h1 | h1
  · exact ⟨f, List.mem_append.mpr (Or.inl h1), hp⟩
  · rcases List.mem_cons.mp h1 with h2 | h2
    · exact absurd h2 hfne
    · exact ⟨f, List.mem_append.mpr (Or.inr h2), hp⟩

theorem countP_drop_one (l : List ℕ) (hnd : l.Nodup) (v : ℕ) (hv : v ∈ l)
    (p p' : ℕ → Bool) (hpv : p v = true) (hp'v : p' v = false)
    (hagree : ∀ u ∈ l, u ≠ v → p u = p' u) :
    l.countP p = l.countP p' + 1 := by
  obtain ⟨A, B, rfl⟩ := List.append_of_mem hv
  have hnotA : v ∉ A := by
    rw [List.nodup_append] at hnd
    intro hva
    exact hnd.2.2 hva (by simp)
  have hnotB : v ∉ B := by
    rw [List.nodup_append] at hnd
    exact (List.nodup_cons.mp hnd.2.1).1
  have hA : A.countP p = A.countP p' := by
    refine List.countP_congr ?_
    intro u hu
    rw [hagree u (by simp [hu]) (fun h => hnotA (h ▸ hu))]
  have hB : B.countP p = B.countP p' := by
    refine List.countP_congr ?_
    intro u hu
    rw [hagree u (by simp [hu]) (fun h => hnotB (h ▸ hu))]
  rw [List.countP_append, List.countP_append, List.countP_cons,
    List.countP_cons, hA, hB, hpv, hp'v]
  simp
  omega

theorem unvisited_count_set {visited : List Bool} {n v : ℕ} (hv : v < n)
    (hlen : visited.length = n) (hunvis : visited.getD v false = false) :
    ((List.range n).filter
      (fun u => ! (visited.set v true).getD u false)).length + 1 =
    ((List.range n).filter (fun u => ! visited.getD u false)).length := by
  rw [← List.countP_eq_length_filter, ← List.countP_eq_length_filter]
  refine (countP_drop_one (List.range n) (List.nodup_range n) v
    (List.mem_range.mpr hv) _ _ ?_ ?_ ?_).symm
  · rw [hunvis]
    rfl
  · rw [getD_set_self _ _ _ _ (by rw [hlen]; exact hv)]
    rfl
  · intro u _ hu
    rw [getD_set_ne _ (fun h => hu h.symm)]

theorem dfsLoop_run {E : List (Edge α)} {n : ℕ} {adj : List (List ℕ)}
    (hadjmem : ∀ v u, u ∈ adj.getD v [] ↔ edgeAdj E v u)
    (hadjnd : ∀ v, (adj.getD v []).Nodup)
    (hElt : ∀ e ∈ E, e.src < n ∧ e.dest < n)
    (hfE : IsForest E) :
    ∀ (fuel : ℕ) (stack : List ℕ) (visited : List Bool) (outV : List ℕ),
      visited.length = n →
      stack.Nodup →
      (∀ u ∈ stack, visited.getD u false = false) →
      (∀ u ∈ stack, u < n) →
      (∀ u, visited.getD u false = true → ∀ w, edgeAdj E u w →
        visited.getD w false = true ∨ w ∈ stack) →
      (∀ u ∈ stack, ∃ p, visited.getD p false = true ∧ edgeAdj E p u) →
      (∀ p q, visited.getD p false = true → visited.getD q false = true →
        conn E p q → connVia E visited p q) →
      ((List.range n).filter (fun u => ! visited.getD u false)).length <
        fuel →
      ∃ outV' visited',
        dfsLoop adj fuel stack visited outV =
          some (outV ++ outV', visited') ∧
        visited'.length = n ∧
        (∀ u, visited'.getD u false = true ↔
          (visited.getD u false = true ∨ u ∈ outV')) ∧
        outV'.Nodup ∧
        (∀ u ∈ outV', visited.getD u false = false ∧ u < n) ∧
        (∀ u ∈ stack, u ∈ outV') ∧
        (∀ u ∈ outV', ∃ s ∈ stack, conn E s u) ∧
        (∀ u, visited'.getD u false = true → ∀ w, edgeAdj E u w →
          visited'.getD w false = true) := by
  intro fuel
  induction fuel with
  | zero =>
    intro stack visited outV hlen hnd hunvis hlt hclosed hparent hvia hfuel
    cases stack with
    | nil =>
      refine ⟨[], visited, by simp [dfsLoop], hlen, by simp, by simp,
        by simp, by simp, by simp, ?_⟩
      intro u hu w hw
      rcases hclosed u hu w hw with h | h
      · exact h
      · exact absurd h (List.not_mem_nil w)
    | cons v stack' => exact absurd hfuel (Nat.not_lt_zero _)
  | succ fuel ih =>
    intro stack visited outV hlen hnd hunvis hlt hclosed hparent hvia hfuel
    cases stack with
    | nil =>
      refine ⟨[], visited, by simp [dfsLoop], hlen, by simp, by simp,
        by simp, by simp, by simp, ?_⟩
      intro u hu w hw
      rcases hclosed u hu w hw with h | h
      · exact h
      · exact absurd h (List.not_mem_nil w)
    | cons v stack' =>
      have hv_unvis : visited.getD v false = false := hunvis v (by simp)
      have hv_lt : v < n := hlt v (by simp)
      have hv_ltlen : v < visited.length := by rw [hlen]; exact hv_lt
      set visited1 := visited.set v true with hvis1def
      set pushes := (adj.getD v []).filter
        (fun u => ! visited1.getD u false) with hpushdef
      have hred : dfsLoop adj (fuel + 1) (v :: stack') visited outV =
          dfsLoop adj fuel (pushes.reverse ++ stack') visited1
            (outV ++ [v]) := rfl
      have hvis1_v : visited1.getD v false = true :=
        getD_set_self _ _ _ _ hv_ltlen
      have hvis1_ne : ∀ u, u ≠ v →
          visited1.getD u false = visited.getD u false := fun u hu =>
        getD_set_ne _ (fun h => hu h.symm) _ _
      have hvis1_mono : ∀ u, visited.getD u false = true →
          visited1.getD u false = true := by
        intro u hu
        by_cases huv : u = v
        · rw [huv]
          exact hvis1_v
        · rw [hvis1_ne u huv]
          exact hu
      have hvis1_false : ∀ u, visited1.getD u false = false →
          visited.getD u false = false ∧ u ≠ v := by
        intro u hu
        by_cases huv : u = v
        · rw [huv, hvis1_v] at hu
          exact absurd hu (by simp)
        · rw [hvis1_ne u huv] at hu
          exact ⟨hu, huv⟩
      have hpush_mem : ∀ u, u ∈ pushes ↔
          (u ∈ adj.getD v [] ∧ visited1.getD u false = false) := by
        intro u
        rw [hpushdef, List.mem_filter]
        simp
      have hpush_nd : pushes.Nodup := (hadjnd v).filter _
      have hpush_adj : ∀ u ∈ pushes, edgeAdj E v u := fun u hu =>
        (hadjmem v u).mp ((hpush_mem u).mp hu).1
      have hpush_unvis1 : ∀ u ∈ pushes, visited1.getD u false = false :=
        fun u hu => ((hpush_mem u).mp hu).2
      have hpush_unvis : ∀ u ∈ pushes, visited.getD u false = false :=
        fun u hu => (hvis1_false u (hpush_unvis1 u hu)).1
      have hpush_ne_v : ∀ u ∈ pushes, u ≠ v := fun u hu =>
        (hvis1_false u (hpush_unvis1 u hu)).2
      have hpush_lt : ∀ u ∈ pushes, u < n := fun u hu =>
        (edgeAdj_lt hElt (hpush_adj u hu)).2
      have hnd' : stack'.Nodup := (List.nodup_cons.mp hnd).2
      have hv_notin : v ∉ stack' := (List.nodup_cons.mp hnd).1
      have hstack'_unvis : ∀ u ∈ stack', visited.getD u false = false :=
        fun u hu => hunvis u (by simp [hu])
      have hstack'_unvis1 : ∀ u ∈ stack',
          visited1.getD u false = false := by
        intro u hu
        rw [hvis1_ne u (fun h => hv_notin (h ▸ hu))]
        exact hstack'_unvis u hu
      have hdisj : ∀ u ∈ pushes, u ∉ stack' := by
        intro u hu hustack
        have hu_unvis : visited.getD u false = false := hpush_unvis u hu
        have hu_ne_v : u ≠ v := hpush_ne_v u hu
        have hadj_vu : edgeAdj E v u := hpush_adj u hu
        obtain ⟨p, hp_vis, hp_adj⟩ := hparent u (by simp [hustack])
        obtain ⟨pv, hpv_vis, hpv_adj⟩ := hparent v (by simp)
        have hp_ne_v : p ≠ v := by
          intro h
          rw [h, hv_unvis] at hp_vis
          exact absurd hp_vis (by simp)
        have hp_ne_u : p ≠ u := by
          intro h
          rw [h, hu_unvis] at hp_vis
          exact absurd hp_vis (by simp)
        have hpv_ne_v : pv ≠ v := by
          intro h
          rw [h, hv_unvis] at hpv_vis
          exact absurd hpv_vis (by simp)
        have hpv_ne_u : pv ≠ u := by
          intro h
          rw [h, hu_unvis] at hpv_vis
          exact absurd hpv_vis (by simp)
        have hconn_pv_p : conn E pv p :=
          conn_trans (conn_single hpv_adj)
            (conn_trans (conn_single hadj_vu)
              (conn_single (edgeAdj_symm hp_adj)))
        have hvia_pv_p : connVia E visited pv p :=
          hvia pv p hpv_vis hp_vis hconn_pv_p
        obtain ⟨e0, he0, hp0⟩ := hadj_vu
        obtain ⟨A, B, hsplitE⟩ := List.append_of_mem he0
        have hcontra := isForest_acyclic E hfE A e0 B hsplitE
        have hsrc_or : (e0.src = v ∧ e0.dest = u) ∨
            (e0.src = u ∧ e0.dest = v) := hp0
        have hstep_conv : ∀ a b, edgeAdj E a b →
            visited.getD a false = true → visited.getD b false = true →
            edgeAdj (A ++ B) a b := by
          intro a b hab hva hvb
          refine edgeAdj_in_rest hsplitE hab ?_
          rintro (⟨h1, h2⟩ | ⟨h1, h2⟩) <;>
            rcases hsrc_or with ⟨hs0, hd0⟩ | ⟨hs0, hd0⟩
          · rw [h1, hs0, hv_unvis] at hva
            exact absurd hva (by simp)
          · rw [h1, hs0, hu_unvis] at hva
            exact absurd hva (by simp)
          · rw [h1, hd0, hu_unvis] at hva
            exact absurd hva (by simp)
          · rw [h1, hd0, hv_unvis] at hva
            exact absurd hva (by simp)
        have hvia_conv : ∀ x y, connVia E visited x y →
            conn (A ++ B) x y := by
          intro x y hxy
          induction hxy with
          | refl => exact conn_refl _ _
          | @tail b c _ hbc ihh =>
            exact conn_trans ihh
              (conn_single (hstep_conv b c hbc.1 hbc.2.1 hbc.2.2))
        have hedge_v_pv : edgeAdj (A ++ B) v pv := by
          refine edgeAdj_in_rest hsplitE (edgeAdj_symm hpv_adj) ?_
          rintro (⟨h1, h2⟩ | ⟨h1, h2⟩) <;>
            rcases hsrc_or with ⟨hs0, hd0⟩ | ⟨hs0, hd0⟩
          · exact hpv_ne_u (h2.trans hd0)
          · exact hu_ne_v ((h1.trans hs0).symm)
          · exact hu_ne_v ((h1.trans hd0).symm)
          · exact hpv_ne_u (h2.trans hs0)
        have hedge_p_u : edgeAdj (A ++ B) p u := by
          refine edgeAdj_in_rest hsplitE hp_adj ?_
          rintro (⟨h1, h2⟩ | ⟨h1, h2⟩) <;>
            rcases hsrc_or with ⟨hs0, hd0⟩ | ⟨hs0, hd0⟩
          · exact hp_ne_v (h1.trans hs0)
          · exact hp_ne_u (h1.trans hs0)
          · exact hp_ne_u (h1.trans hd0)
          · exact hp_ne_v (h1.trans hd0)
        have hconn_AB : conn (A ++ B) v u :=
          conn_trans (conn_single hedge_v_pv)
            (conn_trans (hvia_conv pv p hvia_pv_p)
              (conn_single hedge_p_u))
        rcases hsrc_or with ⟨hs0, hd0⟩ | ⟨hs0, hd0⟩
        · exact hcontra (by rw [hs0, hd0]; exact hconn_AB)
        · exact hcontra (by rw [hs0, hd0]; exact conn_symm hconn_AB)
      have hnd1 : (pushes.reverse ++ stack').Nodup := by
        refine List.Nodup.append (List.nodup_reverse.mpr hpush_nd) hnd' ?_
        intro a ha ha2
        exact hdisj a (List.mem_reverse.mp ha) ha2
      have hunvis1 : ∀ u ∈ pushes.reverse ++ stack',
          visited1.getD u false = false := by
        intro u hu
        rcases List.mem_append.mp hu with h | h
        · exact hpush_unvis1 u (List.mem_reverse.mp h)
        · exact hstack'_unvis1 u h
      have hlt1 : ∀ u ∈ pushes.reverse ++ stack', u < n := by
        intro u hu
        rcases List.mem_append.mp hu with h | h
        · exact hpush_lt u (List.mem_reverse.mp h)
        · exact hlt u (by simp [h])
      have hclosed1 : ∀ u, visited1.getD u false = true →
          ∀ w, edgeAdj E u w →
          visited1.getD w false = true ∨ w ∈ pushes.reverse ++ stack' := by
        intro u hu w hw
        by_cases huv : u = v
        · by_cases hwvis : visited1.getD w false = true
          · exact Or.inl hwvis
          · have hwf : visited1.getD w false = false := by
              simpa using hwvis
            refine Or.inr (List.mem_append.mpr (Or.inl
              (List.mem_reverse.mpr ?_)))
            refine (hpush_mem w).mpr ⟨?_, hwf⟩
            refine (hadjmem v w).mpr ?_
            rw [← huv]
            exact hw
        · rw [hvis1_ne u huv] at hu
          rcases hclosed u hu w hw with h | h
          · exact Or.inl (hvis1_mono w h)
          · rcases List.mem_cons.mp h with h2 | h2
            · refine Or.inl ?_
              rw [h2]
              exact hvis1_v
            · exact Or.inr (List.mem_append.mpr (Or.inr h2))
      have hparent1 : ∀ u ∈ pushes.reverse ++ stack',
          ∃ p, visited1.getD p false = true ∧ edgeAdj E p u := by
        intro u hu
        rcases List.mem_append.mp hu with h | h
        · exact ⟨v, hvis1_v, hpush_adj u (List.mem_reverse.mp h)⟩
        · obtain ⟨p, h1, h2⟩ := hparent u (by simp [h])
          exact ⟨p, hvis1_mono p h1, h2⟩
      have hvia1 : ∀ p q, visited1.getD p false = true →
          visited1.getD q false = true → conn E p q →
          connVia E visited1 p q := by
        have haux : ∀ p, visited.getD p false = true → conn E p v →
            connVia E visited1 p v := by
          intro p hp hpv_conn
          obtain ⟨pv, hpv_vis, hpv_adj⟩ := hparent v (by simp)
          have hconn_p_pv : conn E p pv :=
            conn_trans hpv_conn (conn_single (edgeAdj_symm hpv_adj))
          have h1 : connVia E visited p pv :=
            hvia p pv hp hpv_vis hconn_p_pv
          refine Relation.ReflTransGen.tail
            (connVia_mono_vis hvis1_mono h1) ?_
          exact ⟨hpv_adj, hvis1_mono pv hpv_vis, hvis1_v⟩
        intro p q hp hq hconn
        by_cases hpv : p = v <;> by_cases hqv : q = v
        · rw [hpv, hqv]
          exact Relation.ReflTransGen.refl
        · rw [hvis1_ne q hqv] at hq
          rw [hpv]
          refine connVia_symm (haux q hq ?_)
          refine conn_symm ?_
          rw [← hpv]
          exact hconn
        · rw [hvis1_ne p hpv] at hp
          rw [hqv] at hconn ⊢
          exact haux p hp hconn
        · rw [hvis1_ne p hpv] at hp
          rw [hvis1_ne q hqv] at hq
          exact connVia_mono_vis hvis1_mono (hvia p q hp hq hconn)
      have hlen1 : visited1.length = n := by
        rw [hvis1def, List.length_set, hlen]
      have hfuel1 : ((List.range n).filter
          (fun u => ! visited1.getD u false)).length < fuel := by
        have hcount := unvisited_count_set hv_lt hlen hv_unvis
        rw [← hvis1def] at hcount
        omega
      obtain ⟨outV'', visited', hrun, hlen', hvisiff, hnd'', hout_unvis,
        hstack_out, hreach, hclosedF⟩ :=
        ih (pushes.reverse ++ stack') visited1 (outV ++ [v]) hlen1 hnd1
          hunvis1 hlt1 hclosed1 hparent1 hvia1 hfuel1
      refine ⟨v :: outV'', visited', ?_, hlen', ?_, ?_, ?_, ?_, ?_,
        hclosedF⟩
      · rw [hred, hrun]
        simp
      · intro u
        rw [hvisiff u]
        constructor
        · rintro (h | h)
          · by_cases huv : u = v
            · exact Or.inr (by simp [huv])
            · rw [hvis1_ne u huv] at h
              exact Or.inl h
          · exact Or.inr (by simp [h])
        · rintro (h | h)
          · exact Or.inl (hvis1_mono u h)
          · rcases List.mem_cons.mp h with h2 | h2
            · refine Or.inl ?_
              rw [h2]
              exact hvis1_v
            · exact Or.inr h2
      · refine List.nodup_cons.mpr ⟨?_, hnd''⟩
        intro hmem
        have h1 := (hout_unvis v hmem).1
        rw [hvis1_v] at h1
        exact absurd h1 (by simp)
      · intro u hu
        rcases List.mem_cons.mp hu with h2 | h2
        · rw [h2]
          exact ⟨hv_unvis, hv_lt⟩
        · obtain ⟨h3, h4⟩ := hout_unvis u h2
          exact ⟨(hvis1_false u h3).1, h4⟩
      · intro u hu
        rcases List.mem_cons.mp hu with h2 | h2
        · rw [h2]
          simp
        · exact List.mem_cons_of_mem v
            (hstack_out u (List.mem_append.mpr (Or.inr h2)))
      · intro u hu
        rcases List.mem_cons.mp hu with h2 | h2
        · exact ⟨v, by simp, by rw [h2]; exact conn_refl _ _⟩
        · obtain ⟨s, hs, hsconn⟩ := hreach u h2
          rcases List.mem_append.mp hs with h3 | h3
          · have hes : edgeAdj E v s := hpush_adj s (List.mem_reverse.mp h3)
            exact ⟨v, by simp, conn_trans (conn_single hes) hsconn⟩
          · exact ⟨s, by simp [h3], hsconn⟩

theorem dfs_component {E : List (Edge α)} {n : ℕ} {adj : List (List ℕ)}
    (hadjmem : ∀ v u, u ∈ adj.getD v [] ↔ edgeAdj E v u)
    (hadjnd : ∀ v, (adj.getD v []).Nodup)
    (hElt : ∀ e ∈ E, e.src < n ∧ e.dest < n)
    (hfE : IsForest E) {fuel v0 : ℕ} {visited : List Bool}
    (hfuel : n + 2 ≤ fuel)
    (hlen : visited.length = n) (hv0 : v0 < n)
    (hv0unvis : visited.getD v0 false = false)
    (hclosed : ∀ u, visited.getD u false = true → ∀ w, edgeAdj E u w →
      visited.getD w false = true) :
    ∃ outV visited',
      dfsLoop adj fuel [v0] visited [] = some (outV, visited') ∧
      visited'.length = n ∧
      (∀ u, visited'.getD u false = true ↔
        (visited.getD u false = true ∨ u ∈ outV)) ∧
      outV.Nodup ∧
      (∀ u ∈ outV, visited.getD u false = false) ∧
      (∀ u, u ∈ outV ↔ (u < n ∧ conn E v0 u)) ∧
      (∀ u, visited'.getD u false = true → ∀ w, edgeAdj E u w →
        visited'.getD w false = true) := by
  obtain ⟨f, rfl⟩ : ∃ f, fuel = f + 1 := ⟨fuel - 1, by omega⟩
  have hv0_ltlen : v0 < visited.length := by rw [hlen]; exact hv0
  set visited1 := visited.set v0 true with hvis1def
  set pushes := (adj.getD v0 []).filter
    (fun u => ! visited1.getD u false) with hpushdef
  have hred : dfsLoop adj (f + 1) [v0] visited [] =
      dfsLoop adj f (pushes.reverse ++ []) visited1 ([] ++ [v0]) := rfl
  have hvis1_v : visited1.getD v0 false = true :=
    getD_set_self _ _ _ _ hv0_ltlen
  have hvis1_ne : ∀ u, u ≠ v0 →
      visited1.getD u false = visited.getD u false := fun u hu =>
    getD_set_ne _ (fun h => hu h.symm) _ _
  have hvis1_mono : ∀ u, visited.getD u false = true →
      visited1.getD u false = true := by
    intro u hu
    by_cases huv : u = v0
    · rw [huv]
      exact hvis1_v
    · rw [hvis1_ne u huv]
      exact hu
  have hvis1_false : ∀ u, visited1.getD u false = false →
      visited.getD u false = false ∧ u ≠ v0 := by
    intro u hu
    by_cases huv : u = v0
    · rw [huv, hvis1_v] at hu
      exact absurd hu (by simp)
    · rw [hvis1_ne u huv] at hu
      exact ⟨hu, huv⟩
  have hpush_mem : ∀ u, u ∈ pushes ↔
      (u ∈ adj.getD v0 [] ∧ visited1.getD u false = false) := by
    intro u
    rw [hpushdef, List.mem_filter]
    simp
  have hpush_nd : pushes.Nodup := (hadjnd v0).filter _
  have hpush_adj : ∀ u ∈ pushes, edgeAdj E v0 u := fun u hu =>
    (hadjmem v0 u).mp ((hpush_mem u).mp hu).1
  have hpush_unvis1 : ∀ u ∈ pushes, visited1.getD u false = false :=
    fun u hu => ((hpush_mem u).mp hu).2
  have hpush_lt : ∀ u ∈ pushes, u < n := fun u hu =>
    (edgeAdj_lt hElt (hpush_adj u hu)).2
  have hlen1 : visited1.length = n := by
    rw [hvis1def, List.length_set, hlen]
  have hnd1 : (pushes.reverse ++ ([] : List ℕ)).Nodup := by
    rw [List.append_nil]
    exact List.nodup_reverse.mpr hpush_nd
  have hunvis1 : ∀ u ∈ pushes.reverse ++ ([] : List ℕ),
      visited1.getD u false = false := by
    intro u hu
    rw [List.append_nil] at hu
    exact hpush_unvis1 u (List.mem_reverse.mp hu)
  have hlt1 : ∀ u ∈ pushes.reverse ++ ([] : List ℕ), u < n := by
    intro u hu
    rw [List.append_nil] at hu
    exact hpush_lt u (List.mem_reverse.mp hu)
  have hclosed1 : ∀ u, visited1.getD u false = true →
      ∀ w, edgeAdj E u w →
      visited1.getD w false = true ∨ w ∈ pushes.reverse ++ [] := by
    intro u hu w hw
    by_cases huv : u = v0
    · by_cases hwvis : visited1.getD w false = true
      · exact Or.inl hwvis
      · have hwf : visited1.getD w false = false := by
          simpa using hwvis
        refine Or.inr ?_
        rw [List.append_nil]
        refine List.mem_reverse.mpr ((hpush_mem w).mpr ⟨?_, hwf⟩)
        refine (hadjmem v0 w).mpr ?_
        rw [← huv]
        exact hw
    · rw [hvis1_ne u huv] at hu
      exact Or.inl (hvis1_mono w (hclosed u hu w hw))
  have hparent1 : ∀ u ∈ pushes.reverse ++ ([] : List ℕ),
      ∃ p, visited1.getD p false = true ∧ edgeAdj E p u := by
    intro u hu
    rw [List.append_nil] at hu
    exact ⟨v0, hvis1_v, hpush_adj u (List.mem_reverse.mp hu)⟩
  have hvia1 : ∀ p q, visited1.getD p false = true →
      visited1.getD q false = true → conn E p q →
      connVia E visited1 p q := by
    intro p q hp hq hconn
    by_cases hpv : p = v0 <;> by_cases hqv : q = v0
    · rw [hpv, hqv]
      exact Relation.ReflTransGen.refl
    · rw [hvis1_ne q hqv] at hq
      have h1 := connVia_of_closed hclosed hq (conn_symm (hpv ▸ hconn))
      rw [hv0unvis] at h1
      exact absurd h1.2 (by simp)
    · rw [hvis1_ne p hpv] at hp
      have h1 := connVia_of_closed hclosed hp (hqv ▸ hconn)
      rw [hv0unvis] at h1
      exact absurd h1.2 (by simp)
    · rw [hvis1_ne p hpv] at hp
      exact connVia_mono_vis hvis1_mono
        (connVia_of_closed hclosed hp hconn).1
  have hfuel1 : ((List.range n).filter
      (fun u => ! visited1.getD u false)).length < f := by
    have hcount := unvisited_count_set hv0 hlen hv0unvis
    rw [← hvis1def] at hcount
    have hle : ((List.range n).filter
        (fun u => ! visited.getD u false)).length ≤ n := by
      have h1 := List.length_filter_le
        (fun u => ! visited.getD u false) (List.range n)
      simpa using h1
    omega
  obtain ⟨outV', visited', hrun, hlen', hvisiff, hnd', hout_unvis,
    _, hreach, hclosedF⟩ :=
    dfsLoop_run hadjmem hadjnd hElt hfE f (pushes.reverse ++ [])
      visited1 ([] ++ [v0]) hlen1 hnd1 hunvis1 hlt1 hclosed1 hparent1
      hvia1 hfuel1
  have hvnotout : v0 ∉ outV' := by
    intro hmem
    have h1 := (hout_unvis v0 hmem).1
    rw [hvis1_v] at h1
    exact absurd h1 (by simp)
  have hndall : (v0 :: outV').Nodup := List.nodup_cons.mpr ⟨hvnotout, hnd'⟩
  have hvisiff' : ∀ u, visited'.getD u false = true ↔
      (visited.getD u false = true ∨ u ∈ v0 :: outV') := by
    intro u
    rw [hvisiff u]
    constructor
    · rintro (h | h)
      · by_cases huv : u = v0
        · exact Or.inr (by simp [huv])
        · rw [hvis1_ne u huv] at h
          exact Or.inl h
      · exact Or.inr (by simp [h])
    · rintro (h | h)
      · exact Or.inl (hvis1_mono u h)
      · rcases List.mem_cons.mp h with h2 | h2
        · refine Or.inl ?_
          rw [h2]
          exact hvis1_v
        · exact Or.inr h2
  have hunvisall : ∀ u ∈ v0 :: outV', visited.getD u false = false := by
    intro u hu
    rcases List.mem_cons.mp hu with h2 | h2
    · rw [h2]
      exact hv0unvis
    · exact (hvis1_false u (hout_unvis u h2).1).1
  have hmemiff : ∀ u, u ∈ v0 :: outV' ↔ (u < n ∧ conn E v0 u) := by
    intro u
    constructor
    · intro hu
      rcases List.mem_cons.mp hu with h2 | h2
      · rw [h2]
        exact ⟨hv0, conn_refl _ _⟩
      · obtain ⟨s, hs, hsconn⟩ := hreach u h2
        rw [List.append_nil] at hs
        exact ⟨(hout_unvis u h2).2,
          conn_trans (conn_single (hpush_adj s (List.mem_reverse.mp hs)))
            hsconn⟩
    · rintro ⟨hun, hconn⟩
      have hv0vis' : visited'.getD v0 false = true :=
        (hvisiff v0).mpr (Or.inl hvis1_v)
      have hq := (connVia_of_closed hclosedF hv0vis' hconn).2
      rcases (hvisiff u).mp hq with h | h
      · by_cases huv : u = v0
        · simp [huv]
        · rw [hvis1_ne u huv] at h
          have h1 := connVia_of_closed hclosed h (conn_symm hconn)
          rw [hv0unvis] at h1
          exact absurd h1.2 (by simp)
      · exact List.mem_cons_of_mem v0 h
  refine ⟨v0 :: outV', visited', ?_, hlen', hvisiff', hndall, hunvisall,
    hmemiff, hclosedF⟩
  rw [hred, hrun]
  simp

theorem nodup_getD_inj {l : List ℕ} (hnd : l.Nodup) {i j : ℕ}
    (hi : i < l.length) (hj : j < l.length)
    (h : l.getD i 0 = l.getD j 0) : i = j := by
  rw [List.getD_eq_getElem _ _ hi, List.getD_eq_getElem _ _ hj] at h
  exact (List.Nodup.getElem_inj_iff hnd).mp h

theorem maxStepGo_run {E : List (Edge α)} {cluster : List ℕ}
    {adj : List (List ℕ)} {minSize nRemoved : ℕ}
    (hadjmem : ∀ v u, u ∈ adj.getD v [] ↔ edgeAdj E v u)
    (hadjnd : ∀ v, (adj.getD v []).Nodup)
    (hElt : ∀ e ∈ E, e.src < cluster.length ∧ e.dest < cluster.length)
    (hfE : IsForest E) (hclnd : cluster.Nodup) :
    ∀ (vs : List ℕ) (visited : List Bool) (acc : List (List ℕ)),
      visited.length = cluster.length →
      (∀ u ∈ vs, u < cluster.length) →
      (∀ u, visited.getD u false = true → ∀ w, edgeAdj E u w →
        visited.getD w false = true) →
      (∀ K ∈ acc, ∃ (comp : List ℕ) (v : ℕ), v < cluster.length ∧ comp.Nodup ∧
        (∀ u, u ∈ comp ↔ (u < cluster.length ∧ conn E v u)) ∧
        (∀ u ∈ comp, visited.getD u false = true) ∧
        K = comp.map (fun u => cluster.getD u 0) ∧
        (minSize ≤ K.length ∨ nRemoved = 0)) →
      (∀ v, v < cluster.length → visited.getD v false = true →
        ∃ comp : List ℕ, comp.Nodup ∧
          (∀ u, u ∈ comp ↔ (u < cluster.length ∧ conn E v u)) ∧
          ((minSize ≤ comp.length ∨ nRemoved = 0) →
            comp.map (fun u => cluster.getD u 0) ∈ acc)) →
      List.Pairwise (fun K1 K2 => ∀ p, p ∈ K1 → p ∉ K2) acc →
      ∃ L, maxStepGo adj cluster minSize nRemoved vs visited acc =
          some L ∧
        (∀ K ∈ L, ∃ (comp : List ℕ) (v : ℕ), v < cluster.length ∧ comp.Nodup ∧
          (∀ u, u ∈ comp ↔ (u < cluster.length ∧ conn E v u)) ∧
          K = comp.map (fun u => cluster.getD u 0) ∧
          (minSize ≤ K.length ∨ nRemoved = 0)) ∧
        (∀ v, v < cluster.length →
          (v ∈ vs ∨ visited.getD v false = true) →
          ∃ comp : List ℕ, comp.Nodup ∧
            (∀ u, u ∈ comp ↔ (u < cluster.length ∧ conn E v u)) ∧
            ((minSize ≤ comp.length ∨ nRemoved = 0) →
              comp.map (fun u => cluster.getD u 0) ∈ L)) ∧
        List.Pairwise (fun K1 K2 => ∀ p, p ∈ K1 → p ∉ K2) L := by
  intro vs
  induction vs with
  | nil =>
    intro visited acc hlen hvs hclosed hacc hcomplete hpw
    refine ⟨acc, rfl, ?_, ?_, hpw⟩
    · intro K hK
      obtain ⟨comp, v, h1, h2, h3, _, h5, h6⟩ := hacc K hK
      exact ⟨comp, v, h1, h2, h3, h5, h6⟩
    · intro v hv hvor
      rcases hvor with h | h
      · exact absurd h (List.not_mem_nil v)
      · exact hcomplete v hv h
  | cons v vs' ih =>
    intro visited acc hlen hvs hclosed hacc hcomplete hpw
    by_cases hvisv : visited.getD v false = true
    · have hred : maxStepGo adj cluster minSize nRemoved (v :: vs')
          visited acc = maxStepGo adj cluster minSize nRemoved vs'
          visited acc := by
        simp only [maxStepGo]
        rw [if_pos hvisv]
      obtain ⟨L, hL, h1, h2, h3⟩ := ih visited acc hlen
        (fun u hu => hvs u (by simp [hu])) hclosed hacc hcomplete hpw
      refine ⟨L, by rw [hred]; exact hL, h1, ?_, h3⟩
      intro v' hv' hvor
      refine h2 v' hv' ?_
      rcases hvor with h | h
      · rcases List.mem_cons.mp h with h4 | h4
        · exact Or.inr (by rw [h4]; exact hvisv)
        · exact Or.inl h4
      · exact Or.inr h
    · have hvf : visited.getD v false = false := by simpa using hvisv
      have hvlt : v < cluster.length := hvs v (by simp)
      obtain ⟨outV, visited', hdfs, hlen', hvisiff, hndout, houtunvis,
        hmemiff, hclosedF⟩ :=
        dfs_component hadjmem hadjnd hElt hfE
          (show cluster.length + 2 ≤ 2 * cluster.length + 2 by omega)
          hlen hvlt hvf hclosed
      have hred : maxStepGo adj cluster minSize nRemoved (v :: vs')
          visited acc =
          if minSize ≤ (outV.map (fun u => cluster.getD u 0)).length ∨
              nRemoved = 0 then
            maxStepGo adj cluster minSize nRemoved vs' visited'
              (acc ++ [outV.map (fun u => cluster.getD u 0)])
          else maxStepGo adj cluster minSize nRemoved vs' visited' acc := by
        simp only [maxStepGo]
        rw [if_neg (by rw [hvf]; simp), hdfs]
      have hvs'' : ∀ u ∈ vs', u < cluster.length :=
        fun u hu => hvs u (by simp [hu])
      have hvmemout : v ∈ outV := (hmemiff v).mpr ⟨hvlt, conn_refl _ _⟩
      have hvismono : ∀ u, visited.getD u false = true →
          visited'.getD u false = true :=
        fun u hu => (hvisiff u).mpr (Or.inl hu)
      have houtvis' : ∀ u ∈ outV, visited'.getD u false = true :=
        fun u hu => (hvisiff u).mpr (Or.inr hu)
      have hchar' : ∀ v' ∈ outV, ∀ u, u ∈ outV ↔
          (u < cluster.length ∧ conn E v' u) := by
        intro v' hv' u
        have hconn_vv' : conn E v v' := ((hmemiff v').mp hv').2
        rw [hmemiff u]
        constructor
        · rintro ⟨h1, h2⟩
          exact ⟨h1, conn_trans (conn_symm hconn_vv') h2⟩
        · rintro ⟨h1, h2⟩
          exact ⟨h1, conn_trans hconn_vv' h2⟩
      by_cases hsize : minSize ≤
          (outV.map (fun u => cluster.getD u 0)).length ∨ nRemoved = 0
      · have hcross : ∀ K1 ∈ acc, ∀ p, p ∈ K1 →
            p ∉ outV.map (fun u => cluster.getD u 0) := by
          intro K1 hK1 p hp hpK0
          obtain ⟨comp1, v1, _, _, hchar1, hvisc1, hKeq1, _⟩ :=
            hacc K1 hK1
          rw [hKeq1, List.mem_map] at hp
          obtain ⟨u1, hu1, hu1eq⟩ := hp
          rw [List.mem_map] at hpK0
          obtain ⟨u2, hu2, hu2eq⟩ := hpK0
          have hu1lt : u1 < cluster.length := ((hchar1 u1).mp hu1).1
          have hu2lt : u2 < cluster.length := ((hmemiff u2).mp hu2).1
          have hequ : u1 = u2 :=
            nodup_getD_inj hclnd hu1lt hu2lt (hu1eq.trans hu2eq.symm)
          have h1 := hvisc1 u1 hu1
          rw [hequ, houtunvis u2 hu2] at h1
          exact absurd h1 (by simp)
        have hacc' : ∀ K ∈ acc ++ [outV.map (fun u => cluster.getD u 0)],
            ∃ (comp : List ℕ) (v1 : ℕ), v1 < cluster.length ∧ comp.Nodup ∧
            (∀ u, u ∈ comp ↔ (u < cluster.length ∧ conn E v1 u)) ∧
            (∀ u ∈ comp, visited'.getD u false = true) ∧
            K = comp.map (fun u => cluster.getD u 0) ∧
            (minSize ≤ K.length ∨ nRemoved = 0) := by
          intro K hK
          rcases List.mem_append.mp hK with h | h
          · obtain ⟨comp, v1, a1, a2, a3, a4, a5, a6⟩ := hacc K h
            exact ⟨comp, v1, a1, a2, a3,
              fun u hu => hvismono u (a4 u hu), a5, a6⟩
          · have hKeq : K = outV.map (fun u => cluster.getD u 0) :=
              List.mem_singleton.mp h
            refine ⟨outV, v, hvlt, hndout, hmemiff, houtvis', hKeq, ?_⟩
            rw [hKeq]
            exact hsize
        have hcomplete' : ∀ v1, v1 < cluster.length →
            visited'.getD v1 false = true →
            ∃ comp : List ℕ, comp.Nodup ∧
            (∀ u, u ∈ comp ↔ (u < cluster.length ∧ conn E v1 u)) ∧
            ((minSize ≤ comp.length ∨ nRemoved = 0) →
              comp.map (fun u => cluster.getD u 0) ∈
                acc ++ [outV.map (fun u => cluster.getD u 0)]) := by
          intro v1 hv1 hvis1
          rcases (hvisiff v1).mp hvis1 with h | h
          · obtain ⟨comp, c1, c2, c3⟩ := hcomplete v1 hv1 h
            exact ⟨comp, c1, c2,
              fun hs => List.mem_append.mpr (Or.inl (c3 hs))⟩
          · exact ⟨outV, hndout, hchar' v1 h,
              fun _ => List.mem_append.mpr (Or.inr (by simp))⟩
        have hpw' : List.Pairwise (fun K1 K2 => ∀ p, p ∈ K1 → p ∉ K2)
            (acc ++ [outV.map (fun u => cluster.getD u 0)]) := by
          rw [List.pairwise_append]
          refine ⟨hpw, List.pairwise_singleton _ _, ?_⟩
          intro K1 hK1 K2 hK2 p hp
          rw [List.mem_singleton.mp hK2]
          exact hcross K1 hK1 p hp
        obtain ⟨L, hL, h1, h2, h3⟩ := ih visited'
          (acc ++ [outV.map (fun u => cluster.getD u 0)]) hlen' hvs''
          hclosedF hacc' hcomplete' hpw'
        refine ⟨L, by rw [hred, if_pos hsize]; exact hL, h1, ?_, h3⟩
        intro v1 hv1 hvor
        refine h2 v1 hv1 ?_
        rcases hvor with h | h
        · rcases List.mem_cons.mp h with h4 | h4
          · exact Or.inr (houtvis' v1 (by rw [h4]; exact hvmemout))
          · exact Or.inl h4
        · exact Or.inr (hvismono v1 h)
      · have hacc' : ∀ K ∈ acc,
            ∃ (comp : List ℕ) (v1 : ℕ), v1 < cluster.length ∧ comp.Nodup ∧
            (∀ u, u ∈ comp ↔ (u < cluster.length ∧ conn E v1 u)) ∧
            (∀ u ∈ comp, visited'.getD u false = true) ∧
            K = comp.map (fun u => cluster.getD u 0) ∧
            (minSize ≤ K.length ∨ nRemoved = 0) := by
          intro K hK
          obtain ⟨comp, v1, a1, a2, a3, a4, a5, a6⟩ := hacc K hK
          exact ⟨comp, v1, a1, a2, a3,
            fun u hu => hvismono u (a4 u hu), a5, a6⟩
        have hcomplete' : ∀ v1, v1 < cluster.length →
            visited'.getD v1 false = true →
            ∃ comp : List ℕ, comp.Nodup ∧
            (∀ u, u ∈ comp ↔ (u < cluster.length ∧ conn E v1 u)) ∧
            ((minSize ≤ comp.length ∨ nRemoved = 0) →
              comp.map (fun u => cluster.getD u 0) ∈ acc) := by
          intro v1 hv1 hvis1
          rcases (hvisiff v1).mp hvis1 with h | h
          · exact hcomplete v1 hv1 h
          · refine ⟨outV, hndout, hchar' v1 h, ?_⟩
            intro hs
            exact absurd (by simpa using hs) hsize
        obtain ⟨L, hL, h1, h2, h3⟩ := ih visited' acc hlen' hvs''
          hclosedF hacc' hcomplete' hpw
        refine ⟨L, by rw [hred, if_neg hsize]; exact hL, h1, ?_, h3⟩
        intro v1 hv1 hvor
        refine h2 v1 hv1 ?_
        rcases hvor with h | h
        · rcases List.mem_cons.mp h with h4 | h4
          · exact Or.inr (houtvis' v1 (by rw [h4]; exact hvmemout))
          · exact Or.inl h4
        · exact Or.inr (hvismono v1 h)

end GraphLemmas

/-- C4: for every duplicate-free point-index cluster and threshold `dmax`,
`max_step` builds the Euclidean minimum spanning tree of the cluster (edge
weights are squared distances), deletes every MST edge of squared weight
strictly greater than `dmax * dmax`, and emits exactly the connected
components of the pruned forest whose size is at least `min_size` — every
component when no MST edge was deleted; the emitted clusters are pairwise
disjoint, and no two points of one emitted cluster are the endpoints of a
deleted MST edge. -/
theorem max_step_spec {α : Type} [LinearOrderedField α]
    (cluster : List ℕ) (cloud : List (Point α)) (dmax : α) (minSize : ℕ)
    (hclnd : cluster.Nodup) :
    MaxStepSpec cluster cloud dmax minSize := by
  have hbounds : ∀ e ∈ createEdges cloud cluster,
      e.src < cluster.length ∧ e.dest < cluster.length := by
    intro e he
    obtain ⟨h1, h2⟩ := createEdges_bounds cloud cluster e he
    exact ⟨h1.trans h2, h2⟩
  obtain ⟨hsub, hfE0⟩ :=
    mst_spec (createEdges cloud cluster) cluster.length hbounds
  set E0 := mst (createEdges cloud cluster) cluster.length with hE0def
  have hE0mem : ∀ e ∈ E0, e ∈ createEdges cloud cluster :=
    fun e he => hsub.subset he
  have hE0bounds : ∀ e ∈ E0,
      e.src < cluster.length ∧ e.dest < cluster.length :=
    fun e he => hbounds e (hE0mem e he)
  have hE0ne : ∀ e ∈ E0, e.src ≠ e.dest := fun e he =>
    Nat.ne_of_lt (createEdges_bounds cloud cluster e (hE0mem e he)).1
  have hE0sorted : List.Pairwise weightLE E0 :=
    List.Pairwise.sublist hsub (createEdges_sorted cloud cluster)
  set Epr := removeEdge E0 dmax with hEprdef
  have hfE : IsForest Epr := by
    rw [hEprdef]
    unfold removeEdge
    exact isForest_filter hfE0 _
  have hEmem : ∀ e ∈ Epr, e ∈ E0 := fun e he => (removeEdge_weight he).1
  have hElt : ∀ e ∈ Epr,
      e.src < cluster.length ∧ e.dest < cluster.length :=
    fun e he => hE0bounds e (hEmem e he)
  have hEne : ∀ e ∈ Epr, e.src ≠ e.dest := fun e he => hE0ne e (hEmem e he)
  set adjL := createAdj cluster.length Epr with hadjdef
  have hadjmem : ∀ v u, u ∈ adjL.getD v [] ↔ edgeAdj Epr v u :=
    fun v u => adjList_mem cluster.length hEne hElt v u
  have hadjnd : ∀ v, (adjL.getD v []).Nodup :=
    fun v => adjList_nodup cluster.length hfE hEne hElt v
  have hrepl : ∀ u,
      (List.replicate cluster.length false).getD u false = false := by
    intro u
    rw [List.getD_eq_getElem?_getD, List.getElem?_replicate]
    split <;> rfl
  set nRem := E0.length - Epr.length with hnremdef
  obtain ⟨L, hrun, hLacc, hLcomplete, hLpw⟩ :=
    @maxStepGo_run α Epr cluster adjL minSize nRem hadjmem hadjnd hElt
      hfE hclnd (List.range cluster.length)
      (List.replicate cluster.length false) []
      (by simp)
      (fun u hu => List.mem_range.mp hu)
      (by
        intro u hu
        rw [hrepl u] at hu
        exact absurd hu (by simp))
      (by
        intro K hK
        exact absurd hK (List.not_mem_nil K))
      (by
        intro v hv hvis
        rw [hrepl v] at hvis
        exact absurd hvis (by simp))
      List.Pairwise.nil
  refine ⟨L, ?_, ?_, ?_, hLpw, ?_⟩
  · exact hrun
  · intro K hK
    obtain ⟨comp, v, hvlt, hcompnd, hchar, hKeq, hsize⟩ := hLacc K hK
    refine ⟨hsize, ?_, v, hvlt, ?_⟩
    · rw [hKeq]
      refine List.Nodup.map_on ?_ hcompnd
      intro x hx y hy hxy
      exact nodup_getD_inj hclnd ((hchar x).mp hx).1 ((hchar y).mp hy).1
        hxy
    · intro p
      rw [hKeq, List.mem_map]
      constructor
      · rintro ⟨u, hu, hue⟩
        obtain ⟨h1, h2⟩ := (hchar u).mp hu
        exact ⟨u, h1, h2, hue.symm⟩
      · rintro ⟨u, hlt2, hconn2, hpe⟩
        exact ⟨u, (hchar u).mpr ⟨hlt2, hconn2⟩, hpe.symm⟩
  · intro v hvlt
    obtain ⟨comp, hcompnd, hchar, himp⟩ :=
      hLcomplete v hvlt (Or.inl (List.mem_range.mpr hvlt))
    refine ⟨comp.map (fun u => cluster.getD u 0), ?_, ?_, ?_⟩
    · refine List.Nodup.map_on ?_ hcompnd
      intro x hx y hy hxy
      exact nodup_getD_inj hclnd ((hchar x).mp hx).1 ((hchar y).mp hy).1
        hxy
    · intro p
      rw [List.mem_map]
      constructor
      · rintro ⟨u, hu, hue⟩
        obtain ⟨h1, h2⟩ := (hchar u).mp hu
        exact ⟨u, h1, h2, hue.symm⟩
      · rintro ⟨u, hlt2, hconn2, hpe⟩
        exact ⟨u, (hchar u).mpr ⟨hlt2, hconn2⟩, hpe.symm⟩
    · constructor
      · intro hKL
        obtain ⟨_, _, _, _, _, _, hsize'⟩ := hLacc _ hKL
        exact hsize'
      · intro hs
        refine himp ?_
        rw [List.length_map] at hs
        exact hs
  · intro e he hw K hK hends
    obtain ⟨comp, v, hvlt, hcompnd, hchar, hKeq, _⟩ := hLacc K hK
    obtain ⟨hsrcK, hdestK⟩ := hends
    rw [hKeq, List.mem_map] at hsrcK hdestK
    obtain ⟨u1, hu1, he1⟩ := hsrcK
    obtain ⟨u2, hu2, he2⟩ := hdestK
    obtain ⟨hslt, hdlt⟩ := hE0bounds e he
    have hequ1 : u1 = e.src :=
      nodup_getD_inj hclnd ((hchar u1).mp hu1).1 hslt he1
    have hequ2 : u2 = e.dest :=
      nodup_getD_inj hclnd ((hchar u2).mp hu2).1 hdlt he2
    have hc1 : conn Epr v e.src := by
      rw [← hequ1]
      exact ((hchar u1).mp hu1).2
    have hc2 : conn Epr v e.dest := by
      rw [← hequ2]
      exact ((hchar u2).mp hu2).2
    exact separation_core hE0sorted hfE0 dmax e he hw
      (conn_trans (conn_symm hc1) hc2)

/-- Witness for `max_step_spec`: a concrete three-point cluster over ℚ. -/
theorem max_step_spec_witness :
    ([0, 1, 2] : List ℕ).Nodup ∧
      MaxStepSpec [0, 1, 2]
        ([⟨0, 0, 0, 0⟩, ⟨1, 0, 0, 1⟩, ⟨10, 0, 0, 2⟩] : List (Point ℚ))
        2 2 :=
  ⟨by decide, max_step_spec [0, 1, 2]
    [⟨0, 0, 0, 0⟩, ⟨1, 0, 0, 1⟩, ⟨10, 0, 0, 2⟩] 2 2 (by decide)⟩

end TriplClust
